import Mathlib

/-!
# emverb: stereo delay + reverb signal path

A shallow embedding of `emverb.cpp`.  Samples and parameters are `float` in the
source; here they are elements of an arbitrary linearly ordered field `α`
(with a floor function for the float-to-index conversion of the delay line), so
every definition is computable and can be evaluated over `ℚ`, while the
theorems are stated over `ℝ`.

The signal path (`process_sample`, `AudioCallback`, the delay line) is embedded
with exact arithmetic.  The two numerical helpers come in two forms: `smooth`
and `soft_clip` are the source expressions with exact arithmetic, and
`smooth_f32` and `soft_clip_f32` are the same expressions with every operation
rounded to IEEE 754 binary32 by `f32` (round to nearest, ties to even, gradual
underflow; each operation rounded on its own, overflow not modelled).  The
numerical properties of the helpers that depend on rounding are settled on the
`float` forms.
-/

namespace Emverb

/-! ## Compile-time constants -/

/-- Number of samples in each delay buffer (`MAX_DELAY_SAMPLES`). -/
def MAX_DELAY_SAMPLES : Nat := 96000

section Constants

variable (α : Type) [LinearOrderedField α]

/-- Output level of the dry signal (`DRY_LEVEL = 0.6f`). -/
def DRY_LEVEL : α := 0.6

/-- Output level of the delayed signal (`DELAY_LEVEL = 0.5f`). -/
def DELAY_LEVEL : α := 0.5

/-- Output level of the reverberated signal (`VERB_LEVEL = 0.6f`). -/
def VERB_LEVEL : α := 0.6

/-- Max feedback ratio (`MAX_FEEDBACK = 0.95f`). -/
def MAX_FEEDBACK : α := 0.95

/-- One-pole smoothing coefficient per sample (`SMOOTH_COEFF = 0.002f`). -/
def SMOOTH_COEFF : α := 0.002

end Constants

/-! ## Helpers -/

section Helpers

variable {α : Type} [LinearOrderedField α]

/-- Simple one-pole low-pass for parameter smoothing (`smooth`). -/
def smooth (current target : α) : α :=
  current + SMOOTH_COEFF α * (target - current)

/-- The last two lines of `soft_clip`: the Pade 3/2 quotient
`x2 = x * x; x * (27 + x2) / (27 + 9 * x2)`. -/
def soft_clip_pade (x : α) : α :=
  let x2 := x * x
  x * (27 + x2) / (27 + 9 * x2)

/-- Soft-clip via fast tanh approximation (`soft_clip`). -/
def soft_clip (x : α) : α :=
  if x > 3 then 1
  else if x < -3 then -1
  else soft_clip_pade x

/-- Repeated smoothing toward a constant target: the value of a smoothed
parameter after `n` executions of `current = smooth(current, target)`. -/
def smooth_n (target : α) : Nat → α → α
  | 0, current => current
  | n + 1, current => smooth (smooth_n target n current) target

end Helpers

/-! ## Delay line -/

/-- Modelled from the spec: the `DelayLine<float, max_size>` class of the DSP
library, whose source is not part of this repository.  A fixed-capacity
circular buffer of samples (only the cells below `max_size` are used), the
write cursor and the current delay length. -/
structure DelayLine (α : Type) (max_size : Nat) where
  line : Nat → α
  write_ptr : Nat
  delay : Nat

namespace DelayLine

variable {α : Type} [LinearOrderedField α] [FloorRing α] {max_size : Nat}

/-- Modelled from the spec: `DelayLine::Init`, missing from the sources.  The
buffer is zero-filled at startup and the cursor starts at the first cell. -/
def Init : DelayLine α max_size :=
  { line := fun _ => 0, write_ptr := 0, delay := 0 }

/-- Modelled from the spec: `DelayLine::SetDelay`, missing from the sources.
The length is a non-negative sample count (the fractional part of the float
is dropped), clamped to `[0, max_size - 1]`. -/
def SetDelay (d : DelayLine α max_size) (delay : α) : DelayLine α max_size :=
  { d with delay := min ⌊delay⌋₊ (max_size - 1) }

/-- Modelled from the spec: `DelayLine::Read`, missing from the sources.
Returns the sample at `write_ptr - delay` modulo the capacity. -/
def Read (d : DelayLine α max_size) : α :=
  d.line ((d.write_ptr + max_size - d.delay) % max_size)

/-- Modelled from the spec: `DelayLine::Write`, missing from the sources.
Stores the sample at the write position, then advances the write cursor by
one modulo the capacity. -/
def Write (d : DelayLine α max_size) (sample : α) : DelayLine α max_size :=
  { d with
    line := Function.update d.line d.write_ptr sample
    write_ptr := (d.write_ptr + 1) % max_size }

/-- Every cell of the buffer holds silence. -/
def ZeroFilled (d : DelayLine α max_size) : Prop :=
  ∀ i, i < max_size → d.line i = 0

end DelayLine

/-! ## Reverb, controls and the audio callback -/

/-- The external reverberator `ReverbSc verb`, taken as a parameter: `σ` is the
type of its internal state and `Process` maps a state and a stereo input to
the next state and the stereo output `(verb_out_l, verb_out_r)`. -/
structure ReverbSc (α σ : Type) where
  Process : σ → α → α → σ × (α × α)

/-- The four raw knob / CV readings taken once per block by `hw.GetAdcValue`. -/
structure Controls (α : Type) where
  k_time : α
  k_fback : α
  k_dverb : α
  k_yverb : α

/-- The mutable globals of `emverb.cpp`: the smoothed parameters, the two delay
lines and the state of the reverberator. -/
structure State (α σ : Type) where
  s_delay_time : α
  s_delay_fback : α
  s_dry_verb : α
  s_dly_verb : α
  delay_l : DelayLine α MAX_DELAY_SAMPLES
  delay_r : DelayLine α MAX_DELAY_SAMPLES
  verb : σ

section Callback

variable {α σ : Type} [LinearOrderedField α] [FloorRing α]

/-- The state after the static initialisers and the `Init` calls of `main`. -/
def State.init (verb0 : σ) : State α σ :=
  { s_delay_time := 0, s_delay_fback := 0, s_dry_verb := 0, s_dly_verb := 0
    delay_l := DelayLine.Init, delay_r := DelayLine.Init, verb := verb0 }

/-- One pass through the body of the `for` loop of `AudioCallback`, for the
input pair `(IN_L[i], IN_R[i])`; returns the new state and the output pair
`(OUT_L[i], OUT_R[i])`. -/
def process_sample (rv : ReverbSc α σ) (k : Controls α) (s : State α σ) (inp : α × α) :
    State α σ × (α × α) :=
  -- Smooth parameters
  let s_delay_time := smooth s.s_delay_time k.k_time
  let s_delay_fback := smooth s.s_delay_fback (k.k_fback * MAX_FEEDBACK α)
  let s_dry_verb := smooth s.s_dry_verb k.k_dverb
  let s_dly_verb := smooth s.s_dly_verb k.k_yverb
  let delay_samps := s_delay_time * ((MAX_DELAY_SAMPLES - 1 : Nat) : α)
  let dl := s.delay_l.SetDelay delay_samps
  let dr := s.delay_r.SetDelay delay_samps
  -- Read inputs
  let dry_l := inp.1
  let dry_r := inp.2
  -- Delay read
  let dly_l := dl.Read
  let dly_r := dr.Read
  -- Delay write (input + feedback)
  let dl := dl.Write (dry_l + dly_l * s_delay_fback)
  let dr := dr.Write (dry_r + dly_r * s_delay_fback)
  -- Reverb send bus
  let verb_in_l := (dry_l * s_dry_verb) + (dly_l * s_dly_verb)
  let verb_in_r := (dry_r * s_dry_verb) + (dly_r * s_dly_verb)
  let v := rv.Process s.verb verb_in_l verb_in_r
  let verb_out_l := v.2.1
  let verb_out_r := v.2.2
  -- Output mix
  let mix_l := (dry_l * DRY_LEVEL α) + (dly_l * DELAY_LEVEL α) + (verb_out_l * VERB_LEVEL α)
  let mix_r := (dry_r * DRY_LEVEL α) + (dly_r * DELAY_LEVEL α) + (verb_out_r * VERB_LEVEL α)
  -- Soft-clip to protect the output
  ({ s_delay_time := s_delay_time, s_delay_fback := s_delay_fback
     s_dry_verb := s_dry_verb, s_dly_verb := s_dly_verb
     delay_l := dl, delay_r := dr, verb := v.1 },
   (soft_clip mix_l, soft_clip mix_r))

/-- The audio callback for one block: `k` holds the control readings taken at
the top of the call, the list holds the `size` input pairs, and the result is
the state after the block with the `size` output pairs. -/
def AudioCallback (rv : ReverbSc α σ) (k : Controls α) :
    State α σ → List (α × α) → State α σ × List (α × α)
  | s, [] => (s, [])
  | s, x :: xs =>
    let r := process_sample rv k s x
    let rest := AudioCallback rv k r.1 xs
    (rest.1, r.2 :: rest.2)

/-- The audio driver started by `hw.StartAudio(AudioCallback)`: one call of the
callback per block, each block with its own control readings. -/
def run_blocks (rv : ReverbSc α σ) :
    State α σ → List (Controls α × List (α × α)) → State α σ × List (α × α)
  | s, [] => (s, [])
  | s, b :: bs =>
    let r := AudioCallback rv b.1 s b.2
    let rest := run_blocks rv r.1 bs
    (rest.1, r.2 ++ rest.2)

/-- A reverberator without memory that outputs silence, used as a concrete
stand-in for the external unit. -/
def silent_verb : ReverbSc α Unit :=
  { Process := fun _ _ _ => ((), (0, 0)) }

end Callback

/-! ## One delay channel with constant parameters -/

section DelayChannel

variable {α : Type} [LinearOrderedField α] [FloorRing α] {max_size : Nat}

/-- The delay section of the loop body of `AudioCallback` for one channel:
`SetDelay(delay_samps)`, `Read()`, then `Write(dry + dly * fback)`.  Returns the
delay line after the tick, the delayed sample `dly` and the sample written. -/
def delay_step (d : DelayLine α max_size) (delay_samps fback dry : α) :
    DelayLine α max_size × (α × α) :=
  let d1 := d.SetDelay delay_samps
  let dly := d1.Read
  (d1.Write (dry + dly * fback), (dly, dry + dly * fback))

/-- The delay line after `t` ticks of `delay_step` with a constant delay length
and feedback gain, fed the input sequence `x`. -/
def delay_run (d0 : DelayLine α max_size) (delay_samps fback : α) (x : Nat → α) :
    Nat → DelayLine α max_size
  | 0 => d0
  | t + 1 => (delay_step (delay_run d0 delay_samps fback x t) delay_samps fback (x t)).1

/-- The delayed sample read at tick `t`. -/
def delay_tap (d0 : DelayLine α max_size) (delay_samps fback : α) (x : Nat → α) (t : Nat) : α :=
  (delay_step (delay_run d0 delay_samps fback x t) delay_samps fback (x t)).2.1

/-- The sample written to the delay line at tick `t`. -/
def delay_written (d0 : DelayLine α max_size) (delay_samps fback : α) (x : Nat → α)
    (t : Nat) : α :=
  (delay_step (delay_run d0 delay_samps fback x t) delay_samps fback (x t)).2.2

end DelayChannel

section Taps

variable {α σ : Type} [LinearOrderedField α] [FloorRing α]

end Taps

section Fixtures

variable {α : Type} [LinearOrderedField α] [FloorRing α]

end Fixtures

/-! ## Binary32 arithmetic -/

section Binary32

variable {α : Type} [LinearOrderedField α] [FloorRing α]

/-- Rounding to the nearest integer, ties to the even one. -/
def round_ties_even (z : α) : ℤ :=
  if z - ⌊z⌋ < 1 / 2 then ⌊z⌋
  else if 1 / 2 < z - ⌊z⌋ then ⌊z⌋ + 1
  else if ⌊z⌋ % 2 = 0 then ⌊z⌋ else ⌊z⌋ + 1

/-- The binade exponent used to round `y` to a `float`: the integer part of
the base-2 logarithm of `|y|`, not below the exponent `-126` of the smallest
normal number. -/
def f32_exponent (y : α) : ℤ :=
  max (Int.log 2 |y|) (-126)

/-- The `float` (IEEE 754 binary32, 24-bit significand, round to nearest, ties
to even) nearest to `y`.  Overflow to infinity is not modelled: the exponent is
not bounded above. -/
def f32 (y : α) : α :=
  (round_ties_even (y / 2 ^ (f32_exponent y - 23)) : α) * 2 ^ (f32_exponent y - 23)

/-- The constant `SMOOTH_COEFF = 0.002f` as the compiler stores it: the `float`
nearest to `0.002`. -/
def SMOOTH_COEFF_f32 : α := f32 0.002

/-- The helper `smooth` in `float` arithmetic: every operation of
`current + SMOOTH_COEFF * (target - current)` is rounded to binary32. -/
def smooth_f32 (current target : α) : α :=
  f32 (current + f32 (SMOOTH_COEFF_f32 * f32 (target - current)))

/-- The helper `soft_clip` in `float` arithmetic: every operation of
`x2 = x * x; x * (27.f + x2) / (27.f + 9.f * x2)` is rounded to binary32; the
constants `3.f`, `1.f`, `27.f` and `9.f` are exact. -/
def soft_clip_f32 (x : α) : α :=
  if x > 3 then 1
  else if x < -3 then -1
  else
    let x2 := f32 (x * x)
    f32 (f32 (x * f32 (27 + x2)) / f32 (27 + f32 (9 * x2)))

/-- Repeated `float` smoothing toward a constant target: the value of a
smoothed parameter after `n` executions of `current = smooth(current, target)`. -/
def smooth_f32_n (target : α) : Nat → α → α
  | 0, current => current
  | n + 1, current => smooth_f32 (smooth_f32_n target n current) target

end Binary32

/-! ## The limiter -/

section Limiter

variable {α : Type} [LinearOrderedField α]

theorem soft_clip_pade_den_pos (x : α) : 0 < 27 + 9 * (x * x) := by
  nlinarith [mul_self_nonneg x]

/-- Distance of the Pade quotient from `1`: a cube over the positive denominator. -/
theorem one_sub_soft_clip_pade (x : α) :
    1 - soft_clip_pade x = (3 - x) ^ 3 / (27 + 9 * (x * x)) := by
  have h : (27 + 9 * (x * x) : α) ≠ 0 := (soft_clip_pade_den_pos x).ne.symm
  simp only [soft_clip_pade]
  field_simp
  ring

/-- Distance of the Pade quotient from `-1`. -/
theorem one_add_soft_clip_pade (x : α) :
    1 + soft_clip_pade x = (3 + x) ^ 3 / (27 + 9 * (x * x)) := by
  have h : (27 + 9 * (x * x) : α) ≠ 0 := (soft_clip_pade_den_pos x).ne.symm
  simp only [soft_clip_pade]
  field_simp
  ring

theorem soft_clip_pade_le_one {x : α} (h : x ≤ 3) : soft_clip_pade x ≤ 1 := by
  have h1 := one_sub_soft_clip_pade x
  have h2 : 0 ≤ (3 - x) ^ 3 / (27 + 9 * (x * x)) :=
    div_nonneg (pow_nonneg (by linarith) 3) (soft_clip_pade_den_pos x).le
  linarith

theorem neg_one_le_soft_clip_pade {x : α} (h : -3 ≤ x) : -1 ≤ soft_clip_pade x := by
  have h1 := one_add_soft_clip_pade x
  have h2 : 0 ≤ (3 + x) ^ 3 / (27 + 9 * (x * x)) :=
    div_nonneg (pow_nonneg (by linarith) 3) (soft_clip_pade_den_pos x).le
  linarith

theorem soft_clip_pade_neg (x : α) : soft_clip_pade (-x) = -soft_clip_pade x := by
  simp only [soft_clip_pade]
  ring

/-- The Pade quotient is strictly increasing on the whole line. -/
theorem soft_clip_pade_strictMono {x y : α} (h : x < y) :
    soft_clip_pade x < soft_clip_pade y := by
  have hx := soft_clip_pade_den_pos x
  have hy := soft_clip_pade_den_pos y
  simp only [soft_clip_pade]
  rw [div_lt_div_iff₀ hx hy]
  have key : y * (27 + y * y) * (27 + 9 * (x * x)) - x * (27 + x * x) * (27 + 9 * (y * y))
      = (y - x) * (9 * (x * y - 9) ^ 2 + 27 * (x - y) ^ 2) := by ring
  have hpos : 0 < (y - x) * (9 * (x * y - 9) ^ 2 + 27 * (x - y) ^ 2) := by
    apply mul_pos (by linarith)
    have : 0 < (x - y) ^ 2 := by
      have : x - y ≠ 0 := by intro h0; linarith
      positivity
    nlinarith [sq_nonneg (x * y - 9)]
  linarith

/-- The limiter is the Pade quotient of its argument clamped to `[-3, 3]`. -/
theorem soft_clip_eq_pade_clamp (x : α) :
    soft_clip x = soft_clip_pade (max (-3) (min 3 x)) := by
  unfold soft_clip
  split_ifs with h1 h2
  · rw [min_eq_left h1.le, max_eq_right (by norm_num)]
    have := one_sub_soft_clip_pade (3 : α)
    norm_num at this
    linarith
  · have h3 : min 3 x = x := min_eq_right (by linarith)
    rw [h3, max_eq_left h2.le]
    have := one_add_soft_clip_pade (-3 : α)
    norm_num at this
    linarith
  · rw [min_eq_right (not_lt.mp h1), max_eq_right (not_lt.mp h2)]

theorem soft_clip_le_one (x : α) : soft_clip x ≤ 1 := by
  rw [soft_clip_eq_pade_clamp]
  exact soft_clip_pade_le_one (max_le (by norm_num) (min_le_left 3 x))

theorem neg_one_le_soft_clip (x : α) : -1 ≤ soft_clip x := by
  rw [soft_clip_eq_pade_clamp]
  exact neg_one_le_soft_clip_pade (le_max_left _ _)

theorem soft_clip_pade_zero : soft_clip_pade (0 : α) = 0 := by
  simp [soft_clip_pade]

theorem soft_clip_zero : soft_clip (0 : α) = 0 := by
  have h1 : ¬ (0 : α) > 3 := by norm_num
  have h2 : ¬ (0 : α) < -3 := by norm_num
  simp only [soft_clip, h1, h2, if_false, soft_clip_pade_zero]

theorem soft_clip_neg (x : α) : soft_clip (-x) = -soft_clip x := by
  unfold soft_clip
  by_cases h1 : x > 3
  · have a : ¬ -x > 3 := by intro h; linarith
    have b : -x < -3 := by linarith
    simp only [h1, a, b, if_true, if_false]
  · by_cases h2 : x < -3
    · have a : -x > 3 := by linarith
      simp only [h1, h2, a, if_true, if_false, neg_neg]
    · have a : ¬ -x > 3 := by intro h; apply h2; linarith
      have b : ¬ -x < -3 := by intro h; apply h1; linarith
      simp only [h1, h2, a, b, if_false, soft_clip_pade_neg]

theorem soft_clip_of_gt {x : α} (h : 3 < x) : soft_clip x = 1 := by
  simp only [soft_clip, gt_iff_lt, h, if_true]

theorem soft_clip_of_lt {x : α} (h : x < -3) : soft_clip x = -1 := by
  have h1 : ¬ 3 < x := by intro h3; linarith
  simp only [soft_clip, gt_iff_lt, h1, h, if_true, if_false]

theorem soft_clip_lt_of_lt {x y : α} (hxy : x < y) (hx : x < 3) (hy : -3 < y) :
    soft_clip x < soft_clip y := by
  rw [soft_clip_eq_pade_clamp, soft_clip_eq_pade_clamp]
  apply soft_clip_pade_strictMono
  rcases le_or_lt x (-3) with h | h
  · rw [min_eq_right hx.le, max_eq_left h]
    exact lt_max_iff.mpr (Or.inr (lt_min (by norm_num) hy))
  · rw [min_eq_right hx.le, max_eq_right h.le]
    exact lt_max_iff.mpr (Or.inr (lt_min hx hxy))

end Limiter

/-! ## Claims about the limiter -/

/-- C5. Limiter odd symmetry: for every real `x`, `soft_clip (-x) = -soft_clip x`,
and `soft_clip 0 = 0`. -/
theorem soft_clip_odd : (∀ x : ℝ, soft_clip (-x) = -soft_clip x) ∧ soft_clip (0 : ℝ) = 0 :=
  ⟨soft_clip_neg, soft_clip_zero⟩

/-- C8. Limiter saturation: for every `x > 3`, `soft_clip x = 1` exactly, and
for every `x < -3`, `soft_clip x = -1` exactly. -/
theorem soft_clip_saturates (x : ℝ) :
    (3 < x → soft_clip x = 1) ∧ (x < -3 → soft_clip x = -1) :=
  ⟨soft_clip_of_gt, soft_clip_of_lt⟩

theorem soft_clip_saturates_witness :
    soft_clip (4 : ℝ) = 1 ∧ soft_clip (-4 : ℝ) = -1 :=
  ⟨(soft_clip_saturates 4).1 (by norm_num), (soft_clip_saturates (-4)).2 (by norm_num)⟩

theorem continuous_soft_clip_pade : Continuous (soft_clip_pade : ℝ → ℝ) := by
  unfold soft_clip_pade
  exact Continuous.div (by fun_prop) (by fun_prop) (fun x => (soft_clip_pade_den_pos x).ne.symm)

/-- C7. The limiter has no hard discontinuity: `soft_clip` is continuous on the
reals, and the rational branch evaluates to exactly `1` at `3` and exactly `-1`
at `-3`, where it meets the constant branches. -/
theorem soft_clip_continuous :
    Continuous (soft_clip : ℝ → ℝ) ∧ soft_clip_pade (3 : ℝ) = 1 ∧
      soft_clip_pade (-3 : ℝ) = -1 := by
  refine ⟨?_, by norm_num [soft_clip_pade], by norm_num [soft_clip_pade]⟩
  have h : (soft_clip : ℝ → ℝ) = fun x => soft_clip_pade (max (-3) (min 3 x)) :=
    funext soft_clip_eq_pade_clamp
  rw [h]
  exact continuous_soft_clip_pade.comp (continuous_const.max (continuous_const.min continuous_id))

theorem hasDerivAt_soft_clip_pade_zero : HasDerivAt (soft_clip_pade : ℝ → ℝ) 1 0 := by
  have hnum : HasDerivAt (fun x : ℝ => x * (27 + x * x))
      (1 * (27 + 0 * 0) + 0 * (0 + (1 * 0 + 0 * 1))) 0 :=
    (hasDerivAt_id (0 : ℝ)).mul
      ((hasDerivAt_const (0 : ℝ) (27 : ℝ)).add ((hasDerivAt_id (0 : ℝ)).mul (hasDerivAt_id (0 : ℝ))))
  have hden : HasDerivAt (fun x : ℝ => 27 + 9 * (x * x))
      (0 + 9 * (1 * 0 + 0 * 1)) 0 :=
    (hasDerivAt_const (0 : ℝ) (27 : ℝ)).add
      (((hasDerivAt_id (0 : ℝ)).mul (hasDerivAt_id (0 : ℝ))).const_mul 9)
  have hdiv := hnum.div hden (by norm_num)
  have hfun : (soft_clip_pade : ℝ → ℝ)
      = fun x => (fun x : ℝ => x * (27 + x * x)) x / (fun x : ℝ => 27 + 9 * (x * x)) x := rfl
  rw [hfun]
  convert hdiv using 1
  norm_num

/-- C9. The limiter is near-linear with slope 1 for small inputs: `soft_clip` is
differentiable at `0` and its derivative there equals `1`. -/
theorem soft_clip_deriv_zero :
    DifferentiableAt ℝ (soft_clip : ℝ → ℝ) 0 ∧ deriv (soft_clip : ℝ → ℝ) 0 = 1 := by
  have heq : (soft_clip : ℝ → ℝ) =ᶠ[nhds 0] soft_clip_pade := by
    apply Filter.eventuallyEq_of_mem (Ioo_mem_nhds (by norm_num : (-3 : ℝ) < 0)
      (by norm_num : (0 : ℝ) < 3))
    intro x hx
    have h1 : ¬ x > 3 := not_lt.mpr hx.2.le
    have h2 : ¬ x < -3 := not_lt.mpr hx.1.le
    simp only [soft_clip, h1, h2, if_false]
  have h := hasDerivAt_soft_clip_pade_zero.congr_of_eventuallyEq heq
  exact ⟨h.differentiableAt, h.deriv⟩

/-! ## The parameter smoother -/

section Smoother

variable {α : Type} [LinearOrderedField α]

/-- One update contracts the error by the factor `1 - SMOOTH_COEFF`. -/
theorem smooth_sub_target (c t : α) :
    smooth c t - t = (1 - SMOOTH_COEFF α) * (c - t) := by
  simp only [smooth]
  ring

theorem smooth_n_sub_target (c t : α) (n : Nat) :
    smooth_n t n c - t = (1 - SMOOTH_COEFF α) ^ n * (c - t) := by
  induction n with
  | zero => simp [smooth_n]
  | succ n ih => rw [smooth_n, smooth_sub_target, ih, pow_succ]; ring

/-- A smoothed value stays below any bound that holds for both the old value
and the target. -/
theorem smooth_le_of_le {c t b : α} (hc : c ≤ b) (ht : t ≤ b) : smooth c t ≤ b := by
  have h : smooth c t = (1 - SMOOTH_COEFF α) * c + SMOOTH_COEFF α * t := by
    simp only [smooth]
    ring
  have h1 : (0 : α) ≤ 1 - SMOOTH_COEFF α := by norm_num [SMOOTH_COEFF]
  have h2 : (0 : α) ≤ SMOOTH_COEFF α := by norm_num [SMOOTH_COEFF]
  rw [h]
  nlinarith [mul_le_mul_of_nonneg_left hc h1, mul_le_mul_of_nonneg_left ht h2]

theorem MAX_FEEDBACK_nonneg : (0 : α) ≤ MAX_FEEDBACK α := by
  norm_num [MAX_FEEDBACK]

end Smoother

/-! ## The audio callback -/

section CallbackLemmas

variable {α σ : Type} [LinearOrderedField α] [FloorRing α]

theorem process_sample_s_delay_fback (rv : ReverbSc α σ) (k : Controls α) (s : State α σ)
    (x : α × α) :
    (process_sample rv k s x).1.s_delay_fback
      = smooth s.s_delay_fback (k.k_fback * MAX_FEEDBACK α) := rfl

/-- Within a block whose feedback reading is at most `1`, the smoothed feedback
gain stays at or below `MAX_FEEDBACK`. -/
theorem AudioCallback_fback_le (rv : ReverbSc α σ) (k : Controls α) (hk : k.k_fback ≤ 1)
    (ins : List (α × α)) (s : State α σ) (hs : s.s_delay_fback ≤ MAX_FEEDBACK α) :
    (AudioCallback rv k s ins).1.s_delay_fback ≤ MAX_FEEDBACK α := by
  induction ins generalizing s with
  | nil => exact hs
  | cons x xs ih =>
    simp only [AudioCallback]
    apply ih
    rw [process_sample_s_delay_fback]
    apply smooth_le_of_le hs
    calc k.k_fback * MAX_FEEDBACK α ≤ 1 * MAX_FEEDBACK α :=
          mul_le_mul_of_nonneg_right hk MAX_FEEDBACK_nonneg
      _ = MAX_FEEDBACK α := one_mul _

theorem run_blocks_fback_le (rv : ReverbSc α σ) (blocks : List (Controls α × List (α × α)))
    (hk : ∀ b ∈ blocks, b.1.k_fback ≤ 1) (s : State α σ)
    (hs : s.s_delay_fback ≤ MAX_FEEDBACK α) :
    (run_blocks rv s blocks).1.s_delay_fback ≤ MAX_FEEDBACK α := by
  induction blocks generalizing s with
  | nil => exact hs
  | cons b bs ih =>
    simp only [run_blocks]
    exact ih (fun c hc => hk c (List.mem_cons_of_mem b hc)) _
      (AudioCallback_fback_le rv b.1 (hk b (List.mem_cons_self b bs)) b.2 s hs)

end CallbackLemmas

/-- C2, as stated, fails: the readings are not clamped.  From the initial state,
one sample of a block whose feedback reading is `1000` leaves the smoothed
feedback gain at `1.9`, above `MAX_FEEDBACK`. -/
theorem feedback_exceeds_max :
    (State.init () : State ℝ Unit).s_delay_fback = 0 ∧
      (AudioCallback silent_verb (⟨0, 1000, 0, 0⟩ : Controls ℝ) (State.init ())
        [(0, 0)]).1.s_delay_fback = 1.9 ∧
      ¬ (AudioCallback silent_verb (⟨0, 1000, 0, 0⟩ : Controls ℝ) (State.init ())
        [(0, 0)]).1.s_delay_fback ≤ MAX_FEEDBACK ℝ := by
  have h : (AudioCallback silent_verb (⟨0, 1000, 0, 0⟩ : Controls ℝ) (State.init ())
      [(0, 0)]).1.s_delay_fback = 1.9 := by
    simp only [AudioCallback, process_sample_s_delay_fback, State.init, smooth, SMOOTH_COEFF,
      MAX_FEEDBACK]
    norm_num
  refine ⟨rfl, h, ?_⟩
  rw [h]
  norm_num [MAX_FEEDBACK]

/-- C2, amended. For every sequence of blocks whose raw feedback readings are at
most `1`, starting from a state with `s_delay_fback = 0`, the smoothed feedback
gain is at most `MAX_FEEDBACK` after every sample: after all the completed
blocks and the first `i` samples of the current one, for every `i`. -/
theorem feedback_le_max {σ : Type} (rv : ReverbSc ℝ σ) (s0 : State ℝ σ)
    (h0 : s0.s_delay_fback = 0)
    (blocks : List (Controls ℝ × List (ℝ × ℝ))) (hk : ∀ b ∈ blocks, b.1.k_fback ≤ 1)
    (k : Controls ℝ) (hk1 : k.k_fback ≤ 1) (ins : List (ℝ × ℝ)) (i : Nat) :
    (AudioCallback rv k (run_blocks rv s0 blocks).1 (ins.take i)).1.s_delay_fback
      ≤ MAX_FEEDBACK ℝ := by
  apply AudioCallback_fback_le rv k hk1
  apply run_blocks_fback_le rv blocks hk
  rw [h0]
  exact MAX_FEEDBACK_nonneg

theorem feedback_le_max_witness :
    (AudioCallback silent_verb (⟨0, 1, 0, 0⟩ : Controls ℝ)
      (run_blocks silent_verb (State.init ()) [(⟨0, 1, 0, 0⟩, [(1, 1), (0, 0)])]).1
      ([(0, 0), (1, 0)].take 1)).1.s_delay_fback ≤ MAX_FEEDBACK ℝ :=
  feedback_le_max silent_verb (State.init ()) rfl [(⟨0, 1, 0, 0⟩, [(1, 1), (0, 0)])]
    (by simp) ⟨0, 1, 0, 0⟩ (by simp) [(0, 0), (1, 0)] 1

theorem mod_ne_of_lt_of_lt_add {a b n : Nat} (h1 : a < b) (h2 : b < a + n) :
    a % n ≠ b % n := by
  intro h
  have h3 : (b - a) % n = 0 := Nat.sub_mod_eq_zero_of_mod_eq h.symm
  have h4 : n ∣ b - a := Nat.dvd_of_mod_eq_zero h3
  have h5 : n ≤ b - a := Nat.le_of_dvd (by omega) h4
  omega

section DelayChannelLemmas

variable {α : Type} [LinearOrderedField α] [FloorRing α] {n : Nat}

theorem delay_written_eq (d0 : DelayLine α n) (ds g : α) (x : Nat → α) (t : Nat) :
    delay_written d0 ds g x t = x t + delay_tap d0 ds g x t * g := rfl

/-- After `t` ticks the cursor has advanced `t` cells, each of the last
`max_size` writes is still in its cell, and the cells not yet written hold
silence. -/
theorem delay_run_inv (d0 : DelayLine α n) (ds g : α) (x : Nat → α)
    (hp : d0.write_ptr < n) (hz : d0.ZeroFilled) (t : Nat) :
    (delay_run d0 ds g x t).write_ptr = (d0.write_ptr + t) % n ∧
      (∀ u, u < t → t < u + n →
        (delay_run d0 ds g x t).line ((d0.write_ptr + u) % n) = delay_written d0 ds g x u) ∧
      (∀ j, j < n → (∀ u, u < t → (d0.write_ptr + u) % n ≠ j) →
        (delay_run d0 ds g x t).line j = 0) := by
  induction t with
  | zero =>
    refine ⟨(Nat.mod_eq_of_lt hp).symm, ?_, ?_⟩
    · intro u hu; omega
    · intro j hj _; exact hz j hj
  | succ t ih =>
    obtain ⟨hptr, hhist, hzero⟩ := ih
    have hline : (delay_run d0 ds g x (t + 1)).line
        = Function.update (delay_run d0 ds g x t).line ((d0.write_ptr + t) % n)
            (delay_written d0 ds g x t) := by
      rw [← hptr]; rfl
    have hptr1 : (delay_run d0 ds g x (t + 1)).write_ptr
        = ((delay_run d0 ds g x t).write_ptr + 1) % n := rfl
    refine ⟨?_, ?_, ?_⟩
    · rw [hptr1, hptr, Nat.mod_add_mod, Nat.add_assoc]
    · intro u hu hlt
      rw [hline]
      rcases Nat.lt_succ_iff_lt_or_eq.mp hu with h | h
      · have hne : (d0.write_ptr + u) % n ≠ (d0.write_ptr + t) % n :=
          mod_ne_of_lt_of_lt_add (by omega) (by omega)
        rw [Function.update_noteq hne]
        exact hhist u h (by omega)
      · subst h
        rw [Function.update_same]
    · intro j hj hne
      rw [hline]
      have hjt : j ≠ (d0.write_ptr + t) % n := fun h => hne t (Nat.lt_succ_self t) h.symm
      rw [Function.update_noteq hjt]
      exact hzero j hj (fun u hu => hne u (Nat.lt_succ_of_lt hu))

/-- With an effective delay of `N` samples, `1 ≤ N`, the tap is silent for the
first `N` ticks and then returns the sample written `N` ticks earlier. -/
theorem delay_tap_eq (d0 : DelayLine α n) (ds g : α) (x : Nat → α)
    (hp : d0.write_ptr < n) (hz : d0.ZeroFilled) {N : Nat}
    (hN : min ⌊ds⌋₊ (n - 1) = N) (h1 : 1 ≤ N) (t : Nat) :
    delay_tap d0 ds g x t = if t < N then 0 else delay_written d0 ds g x (t - N) := by
  obtain ⟨hptr, hhist, hzero⟩ := delay_run_inv d0 ds g x hp hz t
  have hNn : N ≤ n - 1 := hN ▸ min_le_right _ _
  have hn : 0 < n := by omega
  have htap : delay_tap d0 ds g x t
      = (delay_run d0 ds g x t).line (((d0.write_ptr + t) % n + n - N) % n) := by
    rw [← hptr, ← hN]; rfl
  have hidx : ((d0.write_ptr + t) % n + n - N) % n = (d0.write_ptr + t + (n - N)) % n := by
    rw [Nat.add_sub_assoc (by omega), Nat.mod_add_mod]
  rw [htap, hidx]
  split_ifs with h
  · apply hzero _ (Nat.mod_lt _ hn)
    intro u hu
    exact mod_ne_of_lt_of_lt_add (by omega) (by omega)
  · have hrw : d0.write_ptr + t + (n - N) = d0.write_ptr + (t - N) + n := by omega
    rw [hrw, Nat.add_mod_right]
    exact hhist (t - N) (by omega) (by omega)

end DelayChannelLemmas

theorem DelayLine.zeroFilled_init {α : Type} [LinearOrderedField α] {n : Nat} :
    (DelayLine.Init : DelayLine α n).ZeroFilled :=
  fun _ _ => rfl

theorem min_floor_natCast {N n : Nat} (h : N ≤ n - 1) : min ⌊(N : ℝ)⌋₊ (n - 1) = N := by
  rw [Nat.floor_natCast]
  exact min_eq_left h

/-- C15. Delay-line round trip as used by the pipeline (set the delay, read,
then write, every tick, with feedback `0`): for every capacity, every `N` with
`1 ≤ N < capacity` and every input sequence `x`, on a zero-initialised delay
line the value read at tick `t` is `0` for `t < N` and exactly `x (t - N)` for
`t ≥ N`, for arbitrarily many ticks, the cursor being `t` modulo the capacity. -/
theorem delay_round_trip (capacity N : Nat) (h1 : 1 ≤ N) (h2 : N < capacity)
    (x : Nat → ℝ) (t : Nat) :
    delay_tap (DelayLine.Init : DelayLine ℝ capacity) (N : ℝ) 0 x t
        = (if t < N then 0 else x (t - N)) ∧
      (delay_run (DelayLine.Init : DelayLine ℝ capacity) (N : ℝ) 0 x t).write_ptr
        = t % capacity := by
  have hp : (DelayLine.Init : DelayLine ℝ capacity).write_ptr < capacity :=
    Nat.lt_of_le_of_lt (Nat.zero_le N) h2
  have hN : min ⌊(N : ℝ)⌋₊ (capacity - 1) = N := min_floor_natCast (by omega)
  constructor
  · rw [delay_tap_eq _ _ _ x hp DelayLine.zeroFilled_init hN h1 t]
    split_ifs
    · rfl
    · rw [delay_written_eq, mul_zero, add_zero]
  · have h := (delay_run_inv (DelayLine.Init : DelayLine ℝ capacity) (N : ℝ) 0 x hp
      DelayLine.zeroFilled_init t).1
    rw [h]
    show (0 + t) % capacity = t % capacity
    rw [Nat.zero_add]

theorem delay_round_trip_witness :
    delay_tap (DelayLine.Init : DelayLine ℝ 4) ((3 : Nat) : ℝ) 0 (fun i => (i : ℝ) + 1) 10
        = (if 10 < 3 then 0 else (fun i : Nat => (i : ℝ) + 1) (10 - 3)) ∧
      (delay_run (DelayLine.Init : DelayLine ℝ 4) ((3 : Nat) : ℝ) 0
        (fun i => (i : ℝ) + 1) 10).write_ptr = 10 % 4 :=
  delay_round_trip 4 3 (by decide) (by decide) (fun i => (i : ℝ) + 1) 10

section Settled

variable {α σ : Type} [LinearOrderedField α] [FloorRing α]

theorem process_sample_s_delay_time (rv : ReverbSc α σ) (k : Controls α) (s : State α σ)
    (x : α × α) :
    (process_sample rv k s x).1.s_delay_time = smooth s.s_delay_time k.k_time := rfl

end Settled

section Ranges

variable {α : Type} [LinearOrderedField α]

theorem smooth_sub_current (c t : α) : smooth c t - c = SMOOTH_COEFF α * (t - c) := by
  simp only [smooth]
  ring

theorem SMOOTH_COEFF_nonneg : (0 : α) ≤ SMOOTH_COEFF α := by
  norm_num [SMOOTH_COEFF]

/-- A smoothed value stays above any bound that holds for both the old value
and the target. -/
theorem le_smooth_of_le {c t b : α} (hc : b ≤ c) (ht : b ≤ t) : b ≤ smooth c t := by
  have h : smooth c t = (1 - SMOOTH_COEFF α) * c + SMOOTH_COEFF α * t := by
    simp only [smooth]
    ring
  have h1 : (0 : α) ≤ 1 - SMOOTH_COEFF α := by norm_num [SMOOTH_COEFF]
  have h2 : (0 : α) ≤ SMOOTH_COEFF α := SMOOTH_COEFF_nonneg
  rw [h]
  nlinarith [mul_le_mul_of_nonneg_left hc h1, mul_le_mul_of_nonneg_left ht h2]

end Ranges

section RangeInvariants

variable {α σ : Type} [LinearOrderedField α] [FloorRing α]

theorem AudioCallback_fback_nonneg (rv : ReverbSc α σ) (k : Controls α) (hk : 0 ≤ k.k_fback)
    (ins : List (α × α)) (s : State α σ) (hs : 0 ≤ s.s_delay_fback) :
    0 ≤ (AudioCallback rv k s ins).1.s_delay_fback := by
  induction ins generalizing s with
  | nil => exact hs
  | cons x xs ih =>
    simp only [AudioCallback]
    apply ih
    rw [process_sample_s_delay_fback]
    exact le_smooth_of_le hs (mul_nonneg hk MAX_FEEDBACK_nonneg)

theorem run_blocks_fback_nonneg (rv : ReverbSc α σ)
    (blocks : List (Controls α × List (α × α)))
    (hk : ∀ b ∈ blocks, 0 ≤ b.1.k_fback) (s : State α σ) (hs : 0 ≤ s.s_delay_fback) :
    0 ≤ (run_blocks rv s blocks).1.s_delay_fback := by
  induction blocks generalizing s with
  | nil => exact hs
  | cons b bs ih =>
    simp only [run_blocks]
    exact ih (fun c hc => hk c (List.mem_cons_of_mem b hc)) _
      (AudioCallback_fback_nonneg rv b.1 (hk b (List.mem_cons_self b bs)) b.2 s hs)

/-- Within a block whose delay-time reading is in `[0, 1]`, the smoothed delay
time stays in `[0, 1]`. -/
theorem AudioCallback_time_mem (rv : ReverbSc α σ) (k : Controls α)
    (hk0 : 0 ≤ k.k_time) (hk1 : k.k_time ≤ 1)
    (ins : List (α × α)) (s : State α σ) (hs0 : 0 ≤ s.s_delay_time) (hs1 : s.s_delay_time ≤ 1) :
    0 ≤ (AudioCallback rv k s ins).1.s_delay_time ∧
      (AudioCallback rv k s ins).1.s_delay_time ≤ 1 := by
  induction ins generalizing s with
  | nil => exact ⟨hs0, hs1⟩
  | cons x xs ih =>
    simp only [AudioCallback]
    apply ih
    · rw [process_sample_s_delay_time]
      exact le_smooth_of_le hs0 hk0
    · rw [process_sample_s_delay_time]
      exact smooth_le_of_le hs1 hk1

theorem run_blocks_time_mem (rv : ReverbSc α σ) (blocks : List (Controls α × List (α × α)))
    (hk : ∀ b ∈ blocks, 0 ≤ b.1.k_time ∧ b.1.k_time ≤ 1) (s : State α σ)
    (hs0 : 0 ≤ s.s_delay_time) (hs1 : s.s_delay_time ≤ 1) :
    0 ≤ (run_blocks rv s blocks).1.s_delay_time ∧
      (run_blocks rv s blocks).1.s_delay_time ≤ 1 := by
  induction blocks generalizing s with
  | nil => exact ⟨hs0, hs1⟩
  | cons b bs ih =>
    simp only [run_blocks]
    have hb := hk b (List.mem_cons_self b bs)
    have h := AudioCallback_time_mem rv b.1 hb.1 hb.2 b.2 s hs0 hs1
    exact ih (fun c hc => hk c (List.mem_cons_of_mem b hc)) _ h.1 h.2

/-- The delay length stored by the loop body is the clamped floor of
`delay_samps`. -/
theorem process_sample_delay (rv : ReverbSc α σ) (k : Controls α) (s : State α σ)
    (x : α × α) :
    (process_sample rv k s x).1.delay_l.delay
        = min ⌊(process_sample rv k s x).1.s_delay_time * ((MAX_DELAY_SAMPLES - 1 : Nat) : α)⌋₊
            (MAX_DELAY_SAMPLES - 1) ∧
      (process_sample rv k s x).1.delay_r.delay
        = min ⌊(process_sample rv k s x).1.s_delay_time * ((MAX_DELAY_SAMPLES - 1 : Nat) : α)⌋₊
            (MAX_DELAY_SAMPLES - 1) :=
  ⟨rfl, rfl⟩

end RangeInvariants

/-- C16. Delay length stays in range: starting from `s_delay_time = 0`, for
every sequence of blocks whose delay-time readings lie in `[0, 1]` and every
sample `x` processed after them, the sample count
`delay_samps = s_delay_time * (MAX_DELAY_SAMPLES - 1)` of that sample lies in
`[0, MAX_DELAY_SAMPLES - 1]`, and the length stored in both delay lines is its
integer part, not changed by the clamp. -/
theorem delay_samps_in_range {σ : Type} (rv : ReverbSc ℝ σ) (s0 : State ℝ σ)
    (h0 : s0.s_delay_time = 0)
    (blocks : List (Controls ℝ × List (ℝ × ℝ)))
    (hk : ∀ b ∈ blocks, 0 ≤ b.1.k_time ∧ b.1.k_time ≤ 1)
    (k : Controls ℝ) (hk0 : 0 ≤ k.k_time) (hk1 : k.k_time ≤ 1)
    (pre : List (ℝ × ℝ)) (x : ℝ × ℝ) :
    0 ≤ (process_sample rv k (AudioCallback rv k (run_blocks rv s0 blocks).1 pre).1 x).1.s_delay_time
          * ((MAX_DELAY_SAMPLES - 1 : Nat) : ℝ) ∧
      (process_sample rv k (AudioCallback rv k (run_blocks rv s0 blocks).1 pre).1 x).1.s_delay_time
          * ((MAX_DELAY_SAMPLES - 1 : Nat) : ℝ) ≤ ((MAX_DELAY_SAMPLES - 1 : Nat) : ℝ) ∧
      (process_sample rv k (AudioCallback rv k (run_blocks rv s0 blocks).1 pre).1 x).1.delay_l.delay
        = ⌊(process_sample rv k
              (AudioCallback rv k (run_blocks rv s0 blocks).1 pre).1 x).1.s_delay_time
            * ((MAX_DELAY_SAMPLES - 1 : Nat) : ℝ)⌋₊ ∧
      (process_sample rv k (AudioCallback rv k (run_blocks rv s0 blocks).1 pre).1 x).1.delay_r.delay
        = ⌊(process_sample rv k
              (AudioCallback rv k (run_blocks rv s0 blocks).1 pre).1 x).1.s_delay_time
            * ((MAX_DELAY_SAMPLES - 1 : Nat) : ℝ)⌋₊ := by
  have hb := run_blocks_time_mem rv blocks hk s0 (le_of_eq h0.symm) (by rw [h0]; norm_num)
  have hp := AudioCallback_time_mem rv k hk0 hk1 pre _ hb.1 hb.2
  have hc : (0 : ℝ) ≤ ((MAX_DELAY_SAMPLES - 1 : Nat) : ℝ) := Nat.cast_nonneg _
  have h1 : 0 ≤ (process_sample rv k
      (AudioCallback rv k (run_blocks rv s0 blocks).1 pre).1 x).1.s_delay_time := by
    rw [process_sample_s_delay_time]
    exact le_smooth_of_le hp.1 hk0
  have h2 : (process_sample rv k
      (AudioCallback rv k (run_blocks rv s0 blocks).1 pre).1 x).1.s_delay_time ≤ 1 := by
    rw [process_sample_s_delay_time]
    exact smooth_le_of_le hp.2 hk1
  have hhi : (process_sample rv k
      (AudioCallback rv k (run_blocks rv s0 blocks).1 pre).1 x).1.s_delay_time
        * ((MAX_DELAY_SAMPLES - 1 : Nat) : ℝ) ≤ ((MAX_DELAY_SAMPLES - 1 : Nat) : ℝ) :=
    mul_le_of_le_one_left hc h2
  have hfl : ⌊(process_sample rv k
      (AudioCallback rv k (run_blocks rv s0 blocks).1 pre).1 x).1.s_delay_time
        * ((MAX_DELAY_SAMPLES - 1 : Nat) : ℝ)⌋₊ ≤ MAX_DELAY_SAMPLES - 1 :=
    Nat.floor_le_of_le hhi
  obtain ⟨dl, dr⟩ := process_sample_delay rv k
    (AudioCallback rv k (run_blocks rv s0 blocks).1 pre).1 x
  exact ⟨mul_nonneg h1 hc, hhi, by rw [dl, min_eq_left hfl], by rw [dr, min_eq_left hfl]⟩

theorem delay_samps_in_range_witness :
    0 ≤ (process_sample silent_verb (⟨1, 0, 0, 0⟩ : Controls ℝ)
          (AudioCallback silent_verb ⟨1, 0, 0, 0⟩
            (run_blocks silent_verb (State.init ()) [(⟨0.5, 0, 0, 0⟩, [(1, 1), (0, 0)])]).1
            [(0, 1)]).1 (1, 0)).1.s_delay_time * ((MAX_DELAY_SAMPLES - 1 : Nat) : ℝ) ∧
      (process_sample silent_verb (⟨1, 0, 0, 0⟩ : Controls ℝ)
          (AudioCallback silent_verb ⟨1, 0, 0, 0⟩
            (run_blocks silent_verb (State.init ()) [(⟨0.5, 0, 0, 0⟩, [(1, 1), (0, 0)])]).1
            [(0, 1)]).1 (1, 0)).1.s_delay_time * ((MAX_DELAY_SAMPLES - 1 : Nat) : ℝ)
        ≤ ((MAX_DELAY_SAMPLES - 1 : Nat) : ℝ) :=
  have h := delay_samps_in_range silent_verb (State.init ()) rfl
    [(⟨0.5, 0, 0, 0⟩, [(1, 1), (0, 0)])] (by simp; norm_num) ⟨1, 0, 0, 0⟩
    (by norm_num) (by norm_num) [(0, 1)] (1, 0)
  ⟨h.1, h.2.1⟩

/-- C17. Feedback-gain range invariant under in-range controls: if
`s_delay_fback` is in `[0, MAX_FEEDBACK]` and the reading `k_fback` is in
`[0, 1]`, then `smooth s_delay_fback (k_fback * MAX_FEEDBACK)` is again in
`[0, MAX_FEEDBACK]`; hence, from a state with `s_delay_fback` in that range
(as it is initially, at `0`), `0 ≤ s_delay_fback ≤ 0.95` holds after every
sample of every block whose readings are in `[0, 1]`. -/
theorem feedback_gain_range {σ : Type} :
    (∀ fb kf : ℝ, 0 ≤ fb → fb ≤ MAX_FEEDBACK ℝ → 0 ≤ kf → kf ≤ 1 →
        0 ≤ smooth fb (kf * MAX_FEEDBACK ℝ) ∧
          smooth fb (kf * MAX_FEEDBACK ℝ) ≤ MAX_FEEDBACK ℝ) ∧
      (∀ (rv : ReverbSc ℝ σ) (s0 : State ℝ σ),
        0 ≤ s0.s_delay_fback → s0.s_delay_fback ≤ MAX_FEEDBACK ℝ →
        ∀ blocks : List (Controls ℝ × List (ℝ × ℝ)),
        (∀ b ∈ blocks, 0 ≤ b.1.k_fback ∧ b.1.k_fback ≤ 1) →
        ∀ k : Controls ℝ, 0 ≤ k.k_fback → k.k_fback ≤ 1 →
        ∀ (ins : List (ℝ × ℝ)) (i : Nat),
          0 ≤ (AudioCallback rv k (run_blocks rv s0 blocks).1 (ins.take i)).1.s_delay_fback ∧
            (AudioCallback rv k (run_blocks rv s0 blocks).1 (ins.take i)).1.s_delay_fback
              ≤ 0.95) ∧
      (State.init () : State ℝ Unit).s_delay_fback = 0 := by
  have hmul : ∀ kf : ℝ, kf ≤ 1 → kf * MAX_FEEDBACK ℝ ≤ MAX_FEEDBACK ℝ := fun kf h =>
    mul_le_of_le_one_left MAX_FEEDBACK_nonneg h
  refine ⟨?_, ?_, rfl⟩
  · intro fb kf h1 h2 h3 h4
    exact ⟨le_smooth_of_le h1 (mul_nonneg h3 MAX_FEEDBACK_nonneg),
      smooth_le_of_le h2 (hmul kf h4)⟩
  · intro rv s0 h1 h2 blocks hk k hk0 hk1 ins i
    constructor
    · exact AudioCallback_fback_nonneg rv k hk0 _ _
        (run_blocks_fback_nonneg rv blocks (fun b hb => (hk b hb).1) s0 h1)
    · have h := AudioCallback_fback_le rv k hk1 (ins.take i) _
        (run_blocks_fback_le rv blocks (fun b hb => (hk b hb).2) s0 h2)
      have e : MAX_FEEDBACK ℝ = 0.95 := rfl
      rw [← e]
      exact h

theorem feedback_gain_range_witness :
    (0 ≤ smooth (0.5 : ℝ) (1 * MAX_FEEDBACK ℝ) ∧
        smooth (0.5 : ℝ) (1 * MAX_FEEDBACK ℝ) ≤ MAX_FEEDBACK ℝ) ∧
      (0 ≤ (AudioCallback silent_verb (⟨0, 1, 0, 0⟩ : Controls ℝ)
          (run_blocks silent_verb (State.init ()) [(⟨0, 0.5, 0, 0⟩, [(1, 1), (0, 0)])]).1
          ([(0, 0), (1, 0)].take 2)).1.s_delay_fback ∧
        (AudioCallback silent_verb (⟨0, 1, 0, 0⟩ : Controls ℝ)
          (run_blocks silent_verb (State.init ()) [(⟨0, 0.5, 0, 0⟩, [(1, 1), (0, 0)])]).1
          ([(0, 0), (1, 0)].take 2)).1.s_delay_fback ≤ 0.95) :=
  ⟨(@feedback_gain_range Unit).1 0.5 1 (by norm_num) (by norm_num [MAX_FEEDBACK]) (by norm_num)
      (by norm_num),
    (@feedback_gain_range Unit).2.1 silent_verb (State.init ()) (le_refl 0) MAX_FEEDBACK_nonneg
      [(⟨0, 0.5, 0, 0⟩, [(1, 1), (0, 0)])] (by simp; norm_num) ⟨0, 1, 0, 0⟩
      (by norm_num) (by norm_num) [(0, 0), (1, 0)] 2⟩

/-! ## Head-room and gain of the limiter -/

section LimiterGain

variable {α : Type} [LinearOrderedField α]

theorem soft_clip_of_abs_le {x : α} (h : |x| ≤ 3) : soft_clip x = soft_clip_pade x := by
  have h1 : ¬ x > 3 := not_lt.mpr (le_trans (le_abs_self x) h)
  have h2 : ¬ x < -3 := not_lt.mpr (by linarith [neg_abs_le x])
  simp only [soft_clip, h1, h2, if_false]

theorem abs_soft_clip_pade_lt_one {x : α} (h : |x| < 3) : |soft_clip_pade x| < 1 := by
  have hx := abs_lt.mp h
  have hd := soft_clip_pade_den_pos x
  have h1 : 0 < (3 - x) ^ 3 / (27 + 9 * (x * x)) := div_pos (pow_pos (by linarith) 3) hd
  have h2 : 0 < (3 + x) ^ 3 / (27 + 9 * (x * x)) := div_pos (pow_pos (by linarith) 3) hd
  rw [← one_sub_soft_clip_pade] at h1
  rw [← one_add_soft_clip_pade] at h2
  exact abs_lt.mpr ⟨by linarith, by linarith⟩

/-- The Pade quotient falls short of its argument by `8 x ^ 3` over the
denominator. -/
theorem sub_soft_clip_pade (x : α) :
    x - soft_clip_pade x = 8 * x ^ 3 / (27 + 9 * (x * x)) := by
  have h : (27 + 9 * (x * x) : α) ≠ 0 := (soft_clip_pade_den_pos x).ne.symm
  simp only [soft_clip_pade]
  field_simp
  ring

/-- On the non-negative half line the limiter returns a non-negative value
below its argument, strictly below away from `0`. -/
theorem soft_clip_nonneg_lt {x : α} (hx : 0 < x) : 0 ≤ soft_clip x ∧ soft_clip x < x := by
  by_cases h3 : x > 3
  · rw [soft_clip_of_gt h3]
    exact ⟨zero_le_one, by linarith⟩
  · have hle : x ≤ 3 := not_lt.mp h3
    have habs : |x| ≤ 3 := by rw [abs_of_pos hx]; exact hle
    have hd := soft_clip_pade_den_pos x
    have hgap : 0 < 8 * x ^ 3 / (27 + 9 * (x * x)) := div_pos (by positivity) hd
    have hnn : 0 ≤ soft_clip_pade x := by
      simp only [soft_clip_pade]
      exact div_nonneg (mul_nonneg hx.le (by nlinarith [mul_self_nonneg x])) hd.le
    rw [soft_clip_of_abs_le habs]
    rw [← sub_soft_clip_pade] at hgap
    exact ⟨hnn, by linarith⟩

theorem abs_soft_clip_lt {x : α} (hx : x ≠ 0) : |soft_clip x| < |x| := by
  rcases lt_or_gt_of_ne hx with h | h
  · have hneg : 0 < -x := neg_pos.mpr h
    obtain ⟨h1, h2⟩ := soft_clip_nonneg_lt hneg
    rw [soft_clip_neg] at h1 h2
    rw [abs_of_neg h, abs_of_nonpos (by linarith)]
    exact h2
  · obtain ⟨h1, h2⟩ := soft_clip_nonneg_lt h
    rw [abs_of_pos h, abs_of_nonneg h1]
    exact h2

theorem soft_clip_monotone {x y : α} (h : x ≤ y) : soft_clip x ≤ soft_clip y := by
  rw [soft_clip_eq_pade_clamp, soft_clip_eq_pade_clamp]
  have hc : max (-3 : α) (min 3 x) ≤ max (-3) (min 3 y) :=
    max_le_max (le_refl _) (min_le_min (le_refl _) h)
  rcases eq_or_lt_of_le hc with he | hl
  · rw [he]
  · exact (soft_clip_pade_strictMono hl).le

end LimiterGain

/-- C18. Output head-room: the compiled-in mix gains sum to `1.7 ≤ 1.8`, and for
all dry, delayed and reverb samples of magnitude at most `1` the mix
`dry * DRY_LEVEL + delayed * DELAY_LEVEL + reverb * VERB_LEVEL` has magnitude
at most `1.7 < 3`, so `soft_clip` takes neither saturation branch and the
output magnitude is strictly less than `1`. -/
theorem output_headroom (dry dly verb : ℝ) (h1 : |dry| ≤ 1) (h2 : |dly| ≤ 1)
    (h3 : |verb| ≤ 1) :
    DRY_LEVEL ℝ + DELAY_LEVEL ℝ + VERB_LEVEL ℝ = 1.7 ∧ (1.7 : ℝ) ≤ 1.8 ∧
      |dry * DRY_LEVEL ℝ + dly * DELAY_LEVEL ℝ + verb * VERB_LEVEL ℝ| ≤ 1.7 ∧ (1.7 : ℝ) < 3 ∧
      ¬ dry * DRY_LEVEL ℝ + dly * DELAY_LEVEL ℝ + verb * VERB_LEVEL ℝ > 3 ∧
      ¬ dry * DRY_LEVEL ℝ + dly * DELAY_LEVEL ℝ + verb * VERB_LEVEL ℝ < -3 ∧
      soft_clip (dry * DRY_LEVEL ℝ + dly * DELAY_LEVEL ℝ + verb * VERB_LEVEL ℝ)
        = soft_clip_pade (dry * DRY_LEVEL ℝ + dly * DELAY_LEVEL ℝ + verb * VERB_LEVEL ℝ) ∧
      |soft_clip (dry * DRY_LEVEL ℝ + dly * DELAY_LEVEL ℝ + verb * VERB_LEVEL ℝ)| < 1 := by
  have a1 := abs_le.mp h1
  have a2 := abs_le.mp h2
  have a3 := abs_le.mp h3
  have hsum : DRY_LEVEL ℝ + DELAY_LEVEL ℝ + VERB_LEVEL ℝ = 1.7 := by
    norm_num [DRY_LEVEL, DELAY_LEVEL, VERB_LEVEL]
  have hmix : |dry * DRY_LEVEL ℝ + dly * DELAY_LEVEL ℝ + verb * VERB_LEVEL ℝ| ≤ 1.7 := by
    simp only [DRY_LEVEL, DELAY_LEVEL, VERB_LEVEL]
    rw [abs_le]
    constructor <;> norm_num <;> linarith [a1.1, a1.2, a2.1, a2.2, a3.1, a3.2]
  have hlt : |dry * DRY_LEVEL ℝ + dly * DELAY_LEVEL ℝ + verb * VERB_LEVEL ℝ| < 3 :=
    lt_of_le_of_lt hmix (by norm_num)
  have hb := abs_lt.mp hlt
  have hpade := soft_clip_of_abs_le hlt.le
  refine ⟨hsum, by norm_num, hmix, by norm_num, not_lt.mpr hb.2.le, not_lt.mpr hb.1.le,
    hpade, ?_⟩
  rw [hpade]
  exact abs_soft_clip_pade_lt_one hlt

theorem output_headroom_witness :
    DRY_LEVEL ℝ + DELAY_LEVEL ℝ + VERB_LEVEL ℝ = 1.7 ∧ (1.7 : ℝ) ≤ 1.8 ∧
      |1 * DRY_LEVEL ℝ + 1 * DELAY_LEVEL ℝ + 1 * VERB_LEVEL ℝ| ≤ 1.7 ∧ (1.7 : ℝ) < 3 ∧
      ¬ 1 * DRY_LEVEL ℝ + 1 * DELAY_LEVEL ℝ + 1 * VERB_LEVEL ℝ > 3 ∧
      ¬ 1 * DRY_LEVEL ℝ + 1 * DELAY_LEVEL ℝ + 1 * VERB_LEVEL ℝ < -3 ∧
      soft_clip (1 * DRY_LEVEL ℝ + 1 * DELAY_LEVEL ℝ + 1 * VERB_LEVEL ℝ)
        = soft_clip_pade (1 * DRY_LEVEL ℝ + 1 * DELAY_LEVEL ℝ + 1 * VERB_LEVEL ℝ) ∧
      |soft_clip (1 * DRY_LEVEL ℝ + 1 * DELAY_LEVEL ℝ + 1 * VERB_LEVEL ℝ)| < 1 :=
  output_headroom 1 1 1 (by norm_num) (by norm_num) (by norm_num)

/-! ## Binary32 rounding -/

theorem two_zpow_pos {α : Type} [LinearOrderedField α] (k : ℤ) : (0 : α) < 2 ^ k :=
  zpow_pos (by norm_num) k

section Rounding

variable {α : Type} [LinearOrderedField α] [FloorRing α]

/-- A real within less than one half of an integer rounds to that integer. -/
theorem round_ties_even_eq (z : α) (m : ℤ) (h : |z - m| < 1 / 2) : round_ties_even z = m := by
  obtain ⟨h1, h2⟩ := abs_lt.mp h
  unfold round_ties_even
  rcases le_or_lt (m : α) z with hz | hz
  · have hf : ⌊z⌋ = m := Int.floor_eq_iff.mpr ⟨hz, by linarith⟩
    rw [hf, if_pos (by linarith)]
  · have hf : ⌊z⌋ = m - 1 := Int.floor_eq_iff.mpr ⟨by push_cast; linarith, by push_cast; linarith⟩
    rw [hf]
    have a : ¬ z - ((m - 1 : ℤ) : α) < 1 / 2 := by push_cast; linarith
    have b : 1 / 2 < z - ((m - 1 : ℤ) : α) := by push_cast; linarith
    rw [if_neg a, if_pos b, sub_add_cancel]

/-- Rounding moves a real by at most one half. -/
theorem abs_round_ties_even_sub_le (z : α) : |(round_ties_even z : α) - z| ≤ 1 / 2 := by
  have h1 : (⌊z⌋ : α) ≤ z := Int.floor_le z
  have h2 : z < ⌊z⌋ + 1 := Int.lt_floor_add_one z
  unfold round_ties_even
  rw [abs_le]
  split_ifs with a b c
  · constructor <;> linarith
  · push_cast; constructor <;> linarith
  · have : z - ⌊z⌋ = 1 / 2 := le_antisymm (not_lt.mp b) (not_lt.mp a)
    constructor <;> linarith
  · have : z - ⌊z⌋ = 1 / 2 := le_antisymm (not_lt.mp b) (not_lt.mp a)
    push_cast; constructor <;> linarith

/-- The binade exponent of a positive normal magnitude. -/
theorem f32_exponent_eq (y : α) (e : ℤ) (he : -126 ≤ e) (h1 : 2 ^ e ≤ |y|)
    (h2 : |y| < 2 ^ (e + 1)) : f32_exponent y = e := by
  have hpos : 0 < |y| := lt_of_lt_of_le (two_zpow_pos e) h1
  have hb : 1 < 2 := by norm_num
  have hc : ((2 : ℕ) : α) = 2 := by norm_num
  have hle : e ≤ Int.log 2 |y| := by
    rw [← Int.zpow_le_iff_le_log hb hpos, hc]; exact h1
  have hlt : Int.log 2 |y| < e + 1 := by
    rw [← Int.lt_zpow_iff_log_lt hb hpos, hc]; exact h2
  have : Int.log 2 |y| = e := by omega
  unfold f32_exponent
  rw [this]
  exact max_eq_left he

/-- Evaluation of `f32` on a normal number: with `e` the binade of `y` and `m`
the integer nearest to `y / 2 ^ (e - 23)`, the result is `m * 2 ^ (e - 23)`. -/
theorem f32_eq_of (y : α) (e m : ℤ) (he : -126 ≤ e) (h1 : 2 ^ e ≤ |y|)
    (h2 : |y| < 2 ^ (e + 1)) (h3 : |y / 2 ^ (e - 23) - m| < 1 / 2) :
    f32 y = m * 2 ^ (e - 23) := by
  unfold f32
  rw [f32_exponent_eq y e he h1 h2, round_ties_even_eq _ m h3]

/-- A real halfway between two integers rounds to the even one. -/
theorem round_ties_even_half_even (m : ℤ) (h : m % 2 = 0) :
    round_ties_even ((m : α) + 1 / 2) = m := by
  have hf : ⌊(m : α) + 1 / 2⌋ = m := Int.floor_eq_iff.mpr ⟨by linarith, by linarith⟩
  unfold round_ties_even
  rw [hf]
  have a : ¬ (m : α) + 1 / 2 - m < 1 / 2 := by linarith
  have b : ¬ 1 / 2 < (m : α) + 1 / 2 - m := by linarith
  rw [if_neg a, if_neg b, if_pos h]

/-- Evaluation of `f32` on a tie: a normal number halfway between two
neighbouring `float` values rounds to the one with the even significand. -/
theorem f32_eq_of_tie_even (y : α) (e m : ℤ) (he : -126 ≤ e) (h1 : 2 ^ e ≤ |y|)
    (h2 : |y| < 2 ^ (e + 1)) (h3 : y / 2 ^ (e - 23) = m + 1 / 2) (hm : m % 2 = 0) :
    f32 y = m * 2 ^ (e - 23) := by
  unfold f32
  rw [f32_exponent_eq y e he h1 h2, h3, round_ties_even_half_even m hm]

end Rounding

section RoundingError

variable {α : Type} [LinearOrderedField α] [FloorRing α]

theorem f32_zero : f32 (0 : α) = 0 := by
  have h : round_ties_even (0 : α) = 0 := round_ties_even_eq 0 0 (by norm_num)
  unfold f32
  rw [zero_div, h]
  simp

/-- The rounding unit of the binade is positive. -/
theorem f32_ulp_pos (y : α) : (0 : α) < 2 ^ (f32_exponent y - 23) := zpow_pos (by norm_num) _

/-- Rounding to `float` moves a real by at most half a unit in the last place. -/
theorem f32_abs_sub_le_half_ulp (y : α) :
    |f32 y - y| ≤ 2 ^ (f32_exponent y - 23) / 2 := by
  have hu := f32_ulp_pos y
  have h := abs_round_ties_even_sub_le (y / 2 ^ (f32_exponent y - 23))
  have e : f32 y - y
      = ((round_ties_even (y / 2 ^ (f32_exponent y - 23)) : α) - y / 2 ^ (f32_exponent y - 23))
        * 2 ^ (f32_exponent y - 23) := by
    unfold f32
    field_simp
  rw [e, abs_mul, abs_of_pos hu]
  calc |(round_ties_even (y / 2 ^ (f32_exponent y - 23)) : α) - y / 2 ^ (f32_exponent y - 23)|
        * 2 ^ (f32_exponent y - 23)
      ≤ 1 / 2 * 2 ^ (f32_exponent y - 23) := mul_le_mul_of_nonneg_right h hu.le
    _ = 2 ^ (f32_exponent y - 23) / 2 := by ring

/-- Rounding to `float` has relative error at most `2 ^ (-24)`, up to the
absolute error `2 ^ (-150)` of the subnormal range. -/
theorem f32_abs_sub_le (y : α) :
    |f32 y - y| ≤ 2 ^ (-24 : ℤ) * |y| + 2 ^ (-150 : ℤ) := by
  have hs : (0 : α) < 2 ^ (-150 : ℤ) := zpow_pos (by norm_num) _
  have hr : (0 : α) < 2 ^ (-24 : ℤ) := zpow_pos (by norm_num) _
  by_cases hy : y = 0
  · subst hy
    rw [f32_zero, sub_zero, abs_zero, mul_zero, zero_add]
    exact hs.le
  · have hpos : 0 < |y| := abs_pos.mpr hy
    have hhalf := f32_abs_sub_le_half_ulp y
    have hsplit : (2 : α) ^ (f32_exponent y - 23) / 2 = 2 ^ (f32_exponent y) * 2 ^ (-24 : ℤ) := by
      rw [← zpow_add₀ (two_ne_zero), show f32_exponent y + (-24) = (f32_exponent y - 23) + (-1) by ring,
        zpow_add₀ (two_ne_zero)]
      norm_num
      ring
    rw [hsplit] at hhalf
    rcases le_or_lt (-126 : ℤ) (Int.log 2 |y|) with hn | hn
    · have hE : f32_exponent y = Int.log 2 |y| := max_eq_left hn
      have hle : (2 : α) ^ (Int.log 2 |y|) ≤ |y| := by
        have h2 : ((2 : ℕ) : α) ^ Int.log 2 |y| ≤ |y| :=
          Int.zpow_log_le_self (by norm_num) hpos
        simpa using h2
      rw [hE] at hhalf
      have : (2 : α) ^ (Int.log 2 |y|) * 2 ^ (-24 : ℤ) ≤ 2 ^ (-24 : ℤ) * |y| := by
        rw [mul_comm]
        exact mul_le_mul_of_nonneg_left hle hr.le
      linarith
    · have hE : f32_exponent y = -126 := max_eq_right hn.le
      rw [hE] at hhalf
      have e : (2 : α) ^ (-126 : ℤ) * 2 ^ (-24 : ℤ) = 2 ^ (-150 : ℤ) := by
        rw [← zpow_add₀ (two_ne_zero)]
        norm_num
      rw [e] at hhalf
      have : (0 : α) ≤ 2 ^ (-24 : ℤ) * |y| := mul_nonneg hr.le hpos.le
      linarith

end RoundingError

section RoundingOrder

variable {α : Type} [LinearOrderedField α] [FloorRing α]

theorem floor_le_round_ties_even (z : α) : ⌊z⌋ ≤ round_ties_even z := by
  unfold round_ties_even
  split_ifs <;> omega

theorem round_ties_even_le_floor_add_one (z : α) : round_ties_even z ≤ ⌊z⌋ + 1 := by
  unfold round_ties_even
  split_ifs <;> omega

theorem round_ties_even_intCast (m : ℤ) : round_ties_even (m : α) = m :=
  round_ties_even_eq (m : α) m (by norm_num)

/-- Rounding to the nearest integer is monotone. -/
theorem round_ties_even_mono {z w : α} (h : z ≤ w) : round_ties_even z ≤ round_ties_even w := by
  rcases eq_or_lt_of_le (Int.floor_mono h) with hf | hf
  · unfold round_ties_even
    rw [← hf]
    split_ifs with a b c d e f g i j
    all_goals first
      | omega
      | (exfalso; linarith)
  · calc round_ties_even z ≤ ⌊z⌋ + 1 := round_ties_even_le_floor_add_one z
      _ ≤ ⌊w⌋ := hf
      _ ≤ round_ties_even w := floor_le_round_ties_even w

/-- Rounding to the nearest integer commutes with negation. -/
theorem round_ties_even_neg (z : α) : round_ties_even (-z) = -round_ties_even z := by
  by_cases ht : z - ⌊z⌋ = 1 / 2
  · have hz : z = ⌊z⌋ + 1 / 2 := by linarith
    have hfn : ⌊-z⌋ = -⌊z⌋ - 1 := by
      rw [Int.floor_eq_iff]
      push_cast
      constructor <;> linarith
    have t1 : ¬ z - ⌊z⌋ < 1 / 2 := by linarith
    have t2 : ¬ 1 / 2 < z - ⌊z⌋ := by linarith
    have t3 : ¬ -z - ((-⌊z⌋ - 1 : ℤ) : α) < 1 / 2 := by push_cast; linarith
    have t4 : ¬ 1 / 2 < -z - ((-⌊z⌋ - 1 : ℤ) : α) := by push_cast; linarith
    unfold round_ties_even
    rw [hfn]
    simp only [t1, t2, t3, t4, if_false]
    split_ifs <;> omega
  · have hlt : |z - (round_ties_even z : α)| < 1 / 2 := by
      have h1 : (⌊z⌋ : α) ≤ z := Int.floor_le z
      have h2 : z < ⌊z⌋ + 1 := Int.lt_floor_add_one z
      unfold round_ties_even
      rw [abs_lt]
      split_ifs with a b
      · constructor <;> linarith
      · push_cast; constructor <;> linarith
      · exact absurd (le_antisymm (not_lt.mp b) (not_lt.mp a)) ht
      · exact absurd (le_antisymm (not_lt.mp b) (not_lt.mp a)) ht
    apply round_ties_even_eq
    push_cast
    rw [abs_lt] at hlt ⊢
    constructor <;> linarith [hlt.1, hlt.2]

theorem f32_exponent_neg (y : α) : f32_exponent (-y) = f32_exponent y := by
  unfold f32_exponent
  rw [abs_neg]

/-- Rounding to `float` commutes with negation. -/
theorem f32_neg (y : α) : f32 (-y) = -f32 y := by
  unfold f32
  rw [f32_exponent_neg, neg_div, round_ties_even_neg]
  push_cast
  ring

theorem f32_nonneg {y : α} (h : 0 ≤ y) : 0 ≤ f32 y := by
  unfold f32
  have hu := f32_ulp_pos y
  have h0 : (0 : ℤ) ≤ round_ties_even (y / 2 ^ (f32_exponent y - 23)) := by
    have := round_ties_even_mono (div_nonneg h hu.le)
    rwa [show round_ties_even (0 : α) = 0 from round_ties_even_eq 0 0 (by norm_num)] at this
  exact mul_nonneg (by exact_mod_cast h0) hu.le

/-- A magnitude lies below the top of its binade. -/
theorem abs_lt_two_zpow_exponent (y : α) : |y| < 2 ^ (f32_exponent y + 1) := by
  have h1 : |y| < ((2 : ℕ) : α) ^ (Int.log 2 |y| + 1) := Int.lt_zpow_succ_log_self (by norm_num) _
  have h2 : ((2 : ℕ) : α) ^ (Int.log 2 |y| + 1) ≤ ((2 : ℕ) : α) ^ (f32_exponent y + 1) :=
    zpow_le_zpow_right₀ (by norm_num) (by unfold f32_exponent; have := le_max_left (Int.log 2 |y|) (-126); omega)
  have h3 : ((2 : ℕ) : α) = 2 := by norm_num
  rw [h3] at h1 h2
  exact lt_of_lt_of_le h1 h2

/-- A normal magnitude lies above the bottom of its binade. -/
theorem two_zpow_exponent_le_abs {y : α} (hy : y ≠ 0) (hn : -126 ≤ Int.log 2 |y|) :
    2 ^ f32_exponent y ≤ |y| := by
  have hE : f32_exponent y = Int.log 2 |y| := max_eq_left hn
  have h2 : ((2 : ℕ) : α) ^ Int.log 2 |y| ≤ |y| :=
    Int.zpow_log_le_self (by norm_num) (abs_pos.mpr hy)
  rw [hE]
  simpa using h2

/-- The result of rounding a non-negative real lies at or below the top of its
binade. -/
theorem f32_le_top {y : α} (h : 0 ≤ y) : f32 y ≤ 2 ^ (f32_exponent y + 1) := by
  have hu := f32_ulp_pos y
  have hlt := abs_lt_two_zpow_exponent y
  rw [abs_of_nonneg h] at hlt
  have hz : y / 2 ^ (f32_exponent y - 23) ≤ ((16777216 : ℤ) : α) := by
    rw [div_le_iff₀ hu]
    have e : ((16777216 : ℤ) : α) * 2 ^ (f32_exponent y - 23) = 2 ^ (f32_exponent y + 1) := by
      rw [show f32_exponent y + 1 = (f32_exponent y - 23) + 24 by ring, zpow_add₀ (two_ne_zero)]
      norm_num
      ring
    rw [e]
    exact hlt.le
  have hr := round_ties_even_mono hz
  rw [round_ties_even_intCast] at hr
  have hr2 : ((round_ties_even (y / 2 ^ (f32_exponent y - 23)) : ℤ) : α) ≤ ((16777216 : ℤ) : α) := by
    exact_mod_cast hr
  unfold f32
  calc ((round_ties_even (y / 2 ^ (f32_exponent y - 23)) : ℤ) : α) * 2 ^ (f32_exponent y - 23)
      ≤ ((16777216 : ℤ) : α) * 2 ^ (f32_exponent y - 23) := mul_le_mul_of_nonneg_right hr2 hu.le
    _ = 2 ^ (f32_exponent y + 1) := by
      rw [show f32_exponent y + 1 = (f32_exponent y - 23) + 24 by ring, zpow_add₀ (two_ne_zero)]
      norm_num
      ring

/-- The result of rounding a positive normal real lies at or above the bottom
of its binade. -/
theorem bottom_le_f32 {y : α} (h : 0 < y) (hn : -126 ≤ Int.log 2 |y|) :
    2 ^ f32_exponent y ≤ f32 y := by
  have hu := f32_ulp_pos y
  have hle := two_zpow_exponent_le_abs h.ne.symm hn
  rw [abs_of_pos h] at hle
  have e : ((8388608 : ℤ) : α) * 2 ^ (f32_exponent y - 23) = 2 ^ f32_exponent y := by
    rw [show f32_exponent y = (f32_exponent y - 23) + 23 by ring, zpow_add₀ (two_ne_zero)]
    norm_num
    ring
  have hz : ((8388608 : ℤ) : α) ≤ y / 2 ^ (f32_exponent y - 23) := by
    rw [le_div_iff₀ hu, e]
    exact hle
  have hr := round_ties_even_mono hz
  rw [round_ties_even_intCast] at hr
  have hr2 : ((8388608 : ℤ) : α) ≤ ((round_ties_even (y / 2 ^ (f32_exponent y - 23)) : ℤ) : α) := by
    exact_mod_cast hr
  unfold f32
  calc (2 : α) ^ f32_exponent y = ((8388608 : ℤ) : α) * 2 ^ (f32_exponent y - 23) := e.symm
    _ ≤ _ := mul_le_mul_of_nonneg_right hr2 hu.le

theorem f32_exponent_mono {x y : α} (hx : 0 < x) (h : x ≤ y) :
    f32_exponent x ≤ f32_exponent y := by
  unfold f32_exponent
  rw [abs_of_pos hx, abs_of_pos (lt_of_lt_of_le hx h)]
  exact max_le_max (Int.log_mono_right hx h) (le_refl _)

theorem f32_mono_of_pos {x y : α} (hx : 0 < x) (h : x ≤ y) : f32 x ≤ f32 y := by
  have hy : 0 < y := lt_of_lt_of_le hx h
  rcases eq_or_lt_of_le (f32_exponent_mono hx h) with he | he
  · unfold f32
    rw [← he]
    have hu := f32_ulp_pos x
    have hz : x / 2 ^ (f32_exponent x - 23) ≤ y / 2 ^ (f32_exponent x - 23) :=
      div_le_div_of_nonneg_right h hu.le
    have hr := round_ties_even_mono hz
    exact mul_le_mul_of_nonneg_right (by exact_mod_cast hr) hu.le
  · have hn : -126 ≤ Int.log 2 |y| := by
      by_contra hc
      have : f32_exponent y = -126 := max_eq_right (by omega)
      have h2 : -126 ≤ f32_exponent x := le_max_right _ _
      omega
    calc f32 x ≤ 2 ^ (f32_exponent x + 1) := f32_le_top hx.le
      _ ≤ 2 ^ f32_exponent y := zpow_le_zpow_right₀ (by norm_num) (by omega)
      _ ≤ f32 y := bottom_le_f32 hy hn

/-- Rounding to `float` is monotone. -/
theorem f32_mono {x y : α} (h : x ≤ y) : f32 x ≤ f32 y := by
  rcases lt_trichotomy 0 x with hx | hx | hx
  · exact f32_mono_of_pos hx h
  · subst hx
    rw [f32_zero]
    exact f32_nonneg h
  · rcases lt_or_le y 0 with hy | hy
    · have := f32_mono_of_pos (neg_pos.mpr hy) (neg_le_neg h)
      rw [f32_neg, f32_neg] at this
      linarith
    · have h1 : f32 x ≤ 0 := by
        have := f32_nonneg (neg_nonneg.mpr hx.le)
        rw [f32_neg] at this
        linarith
      exact le_trans h1 (f32_nonneg hy)

end RoundingOrder

theorem two_zpow_24 {α : Type} [LinearOrderedField α] (k : ℤ) : (2 : α) ^ (k + 24) = 16777216 * 2 ^ k := by
  rw [zpow_add₀ (two_ne_zero), mul_comm]
  norm_num

theorem two_zpow_23 {α : Type} [LinearOrderedField α] (k : ℤ) : (2 : α) ^ (k + 23) = 8388608 * 2 ^ k := by
  rw [zpow_add₀ (two_ne_zero), mul_comm]
  norm_num

section Representable

variable {α : Type} [LinearOrderedField α] [FloorRing α]

/-- The significand of a rounded non-negative real is at most `2 ^ 24`. -/
theorem significand_le {y : α} (h : 0 ≤ y) :
    round_ties_even (y / 2 ^ (f32_exponent y - 23)) ≤ 16777216 := by
  have hu := f32_ulp_pos y
  have hlt := abs_lt_two_zpow_exponent y
  rw [abs_of_nonneg h, show f32_exponent y + 1 = (f32_exponent y - 23) + 24 by ring,
    two_zpow_24] at hlt
  have hz : y / 2 ^ (f32_exponent y - 23) ≤ ((16777216 : ℤ) : α) := by
    rw [div_le_iff₀ hu]
    push_cast
    exact hlt.le
  have hr := round_ties_even_mono hz
  rwa [round_ties_even_intCast] at hr

/-- The significand of a rounded positive normal real is at least `2 ^ 23`. -/
theorem le_significand {y : α} (h : 0 < y) (hn : -126 ≤ Int.log 2 |y|) :
    8388608 ≤ round_ties_even (y / 2 ^ (f32_exponent y - 23)) := by
  have hu := f32_ulp_pos y
  have hle := two_zpow_exponent_le_abs h.ne.symm hn
  rw [abs_of_pos h] at hle
  nth_rewrite 1 [show f32_exponent y = (f32_exponent y - 23) + 23 by ring] at hle
  rw [two_zpow_23] at hle
  have hz : ((8388608 : ℤ) : α) ≤ y / 2 ^ (f32_exponent y - 23) := by
    rw [le_div_iff₀ hu]
    push_cast
    exact hle
  have hr := round_ties_even_mono hz
  rwa [round_ties_even_intCast] at hr

theorem significand_nonneg {y : α} (h : 0 ≤ y) :
    0 ≤ round_ties_even (y / 2 ^ (f32_exponent y - 23)) := by
  have hu := f32_ulp_pos y
  have := round_ties_even_mono (div_nonneg h hu.le)
  rwa [show round_ties_even (0 : α) = 0 from round_ties_even_eq 0 0 (by norm_num)] at this

/-- The binade exponent of a positive subnormal magnitude. -/
theorem f32_exponent_of_lt {v : α} (h0 : 0 < |v|) (h : |v| < 2 ^ (-126 : ℤ)) :
    f32_exponent v = -126 := by
  have hc : ((2 : ℕ) : α) = 2 := by norm_num
  have hlog : Int.log 2 |v| < -126 := by
    rw [← Int.lt_zpow_iff_log_lt (by norm_num) h0, hc]
    exact h
  exact max_eq_right hlog.le

/-- Every number `m * 2 ^ (E - 23)` with a significand `m` of at most 24 bits
and an exponent `E ≥ -126` (with `E = -126` when `m` has fewer than 24 bits) is
a `float`: rounding leaves it unchanged. -/
theorem f32_repr (m E : ℤ) (hE : -126 ≤ E) (hm0 : 0 ≤ m) (hm : m ≤ 16777216)
    (hsub : m < 8388608 → E = -126) :
    f32 ((m : α) * 2 ^ (E - 23)) = (m : α) * 2 ^ (E - 23) := by
  have hu : (0 : α) < 2 ^ (E - 23) := zpow_pos (by norm_num) _
  rcases eq_or_lt_of_le hm0 with h0 | hpos
  · rw [← h0]
    simp [f32_zero]
  have hmpos : (0 : α) < (m : α) := by exact_mod_cast hpos
  have hvpos : (0 : α) < (m : α) * 2 ^ (E - 23) := mul_pos hmpos hu
  rcases eq_or_lt_of_le hm with htop | hlt
  · -- the value is the power of two at the top of the binade
    have ev : (m : α) * 2 ^ (E - 23) = 2 ^ (E + 1) := by
      rw [htop, show E + 1 = (E - 23) + 24 by ring, two_zpow_24]
      norm_num
    rw [ev]
    have e2 : (2 : α) ^ (E + 1) = ((8388608 : ℤ) : α) * 2 ^ (E + 1 - 23) := by
      nth_rewrite 1 [show E + 1 = (E + 1 - 23) + 23 by ring]
      rw [two_zpow_23]
      norm_num
    have hup : (0 : α) < 2 ^ (E + 1 - 23) := zpow_pos (by norm_num) _
    rw [f32_eq_of _ (E + 1) 8388608 (by omega)
      (by rw [abs_of_pos (zpow_pos (by norm_num) _)])
      (by rw [abs_of_pos (zpow_pos (by norm_num) _)]
          exact zpow_lt_zpow_right₀ (by norm_num) (by omega))
      (by rw [e2, mul_div_cancel_right₀ _ hup.ne.symm, sub_self, abs_zero]; norm_num)]
    exact e2.symm
  rcases le_or_lt (8388608 : ℤ) m with hn | hs
  · -- a normal number
    have h1 : (2 : α) ^ E ≤ (m : α) * 2 ^ (E - 23) := by
      nth_rewrite 1 [show E = (E - 23) + 23 by ring]
      rw [two_zpow_23]
      exact mul_le_mul_of_nonneg_right (by exact_mod_cast hn) hu.le
    have h2 : (m : α) * 2 ^ (E - 23) < 2 ^ (E + 1) := by
      rw [show E + 1 = (E - 23) + 24 by ring, two_zpow_24]
      exact mul_lt_mul_of_pos_right (by exact_mod_cast hlt) hu
    rw [f32_eq_of _ E m hE (by rw [abs_of_pos hvpos]; exact h1)
      (by rw [abs_of_pos hvpos]; exact h2)
      (by rw [mul_div_cancel_right₀ _ hu.ne.symm, sub_self, abs_zero]; norm_num)]
  · -- a subnormal number
    have hE2 : E = -126 := hsub hs
    subst hE2
    have h2 : (m : α) * 2 ^ (-126 - 23 : ℤ) < 2 ^ (-126 : ℤ) := by
      nth_rewrite 2 [show (-126 : ℤ) = (-126 - 23) + 23 by ring]
      rw [two_zpow_23]
      exact mul_lt_mul_of_pos_right (by exact_mod_cast hs) hu
    have hexp : f32_exponent ((m : α) * 2 ^ (-126 - 23 : ℤ)) = -126 :=
      f32_exponent_of_lt (by rw [abs_of_pos hvpos]; exact hvpos)
        (by rw [abs_of_pos hvpos]; exact h2)
    unfold f32
    rw [hexp, mul_div_cancel_right₀ _ hu.ne.symm, round_ties_even_intCast]

/-- Rounding to `float` is idempotent: its results are `float` values. -/
theorem f32_f32 (y : α) : f32 (f32 y) = f32 y := by
  have key : ∀ z : α, 0 < z → f32 (f32 z) = f32 z := by
    intro z hz
    have hsub : round_ties_even (z / 2 ^ (f32_exponent z - 23)) < 8388608 →
        f32_exponent z = -126 := by
      intro hlt
      by_contra hne
      have hn : -126 ≤ Int.log 2 |z| := by
        by_contra hc
        exact hne (max_eq_right (by omega))
      have := le_significand hz hn
      omega
    exact f32_repr _ _ (le_max_right _ _) (significand_nonneg hz.le) (significand_le hz.le) hsub
  rcases lt_trichotomy 0 y with hy | hy | hy
  · exact key y hy
  · subst hy
    rw [f32_zero, f32_zero]
  · have := key (-y) (neg_pos.mpr hy)
    rw [f32_neg, f32_neg] at this
    linarith [this]

/-- Every `float` is an integer multiple of the smallest subnormal `2 ^ (-149)`. -/
theorem f32_grid (y : α) : ∃ k : ℤ, f32 y = (k : α) * 2 ^ (-149 : ℤ) := by
  have hE : -126 ≤ f32_exponent y := le_max_right _ _
  obtain ⟨n, hn⟩ := Int.eq_ofNat_of_zero_le (show 0 ≤ f32_exponent y + 126 by omega)
  refine ⟨round_ties_even (y / 2 ^ (f32_exponent y - 23)) * 2 ^ n, ?_⟩
  have e : (2 : α) ^ (f32_exponent y - 23) = 2 ^ n * 2 ^ (-149 : ℤ) := by
    rw [show f32_exponent y - 23 = (n : ℤ) + (-149) by omega, zpow_add₀ (two_ne_zero),
      zpow_natCast]
  unfold f32
  rw [e]
  push_cast
  ring

/-- Two distinct `float` values are at least `2 ^ (-149)` apart. -/
theorem f32_gap {c t : α} (hc : f32 c = c) (ht : f32 t = t) (h : c < t) :
    2 ^ (-149 : ℤ) ≤ t - c := by
  obtain ⟨kc, hkc⟩ := f32_grid c
  obtain ⟨kt, hkt⟩ := f32_grid t
  rw [hc] at hkc
  rw [ht] at hkt
  have hs : (0 : α) < 2 ^ (-149 : ℤ) := zpow_pos (by norm_num) _
  have hk : kc < kt := by
    by_contra hcon
    have : (kt : α) ≤ (kc : α) := by exact_mod_cast not_lt.mp hcon
    have := mul_le_mul_of_nonneg_right this hs.le
    rw [← hkc, ← hkt] at this
    linarith
  have h1 : (1 : α) ≤ (kt : α) - (kc : α) := by
    have : kc + 1 ≤ kt := hk
    have : ((kc + 1 : ℤ) : α) ≤ (kt : α) := by exact_mod_cast this
    push_cast at this
    linarith
  rw [hkc, hkt, ← sub_mul]
  calc (2 : α) ^ (-149 : ℤ) = 1 * 2 ^ (-149 : ℤ) := (one_mul _).symm
    _ ≤ ((kt : α) - (kc : α)) * 2 ^ (-149 : ℤ) := mul_le_mul_of_nonneg_right h1 hs.le

end Representable

/-- The rounding error of `float` arithmetic over the reals in plain numerals:
`2 ^ (-24)` relative, plus a negligible absolute term. -/
theorem f32_err (y : ℝ) : |f32 y - y| ≤ (|y| + 1 / 1099511627776) / 16777216 := by
  have h := f32_abs_sub_le y
  have e1 : (2 : ℝ) ^ (-24 : ℤ) = 1 / 16777216 := by norm_num
  have e2 : (2 : ℝ) ^ (-150 : ℤ) ≤ 1 / 1099511627776 / 16777216 := by norm_num
  rw [e1] at h
  linarith

/-- Rounding error for an argument of magnitude at most `B`. -/
theorem f32_err_of_le (y B : ℝ) (h : |y| ≤ B) : |f32 y - y| ≤ (B + 1 / 1099511627776) / 16777216 := by
  have := f32_err y
  linarith

/-- A quotient of perturbed numerator and denominator stays close to the exact
quotient when the exact quotient has magnitude at most `1` and the denominator
is at least `27`. -/
theorem quotient_close {b d N D : ℝ} (hD : 27 ≤ D) (hN : |N| ≤ D)
    (hb : |b - N| ≤ 256 / 16777216) (hd : |d - D| ≤ 283 / 16777216) :
    |b / d - N / D| ≤ 21 / 16777216 := by
  obtain ⟨hd1, hd2⟩ := abs_le.mp hd
  have hdpos : 0 < d := by linarith
  have hDpos : 0 < D := by linarith
  have hnum : |b * D - N * d| ≤ 539 / 16777216 * D := by
    have e : b * D - N * d = (b - N) * D - N * (d - D) := by ring
    have p1 : |(b - N) * D| ≤ 256 / 16777216 * D := by
      rw [abs_mul, abs_of_pos hDpos]
      exact mul_le_mul_of_nonneg_right hb hDpos.le
    have p2 : |N * (d - D)| ≤ D * (283 / 16777216) := by
      rw [abs_mul]
      exact mul_le_mul hN hd (abs_nonneg _) hDpos.le
    rw [e]
    calc |(b - N) * D - N * (d - D)| ≤ |(b - N) * D| + |N * (d - D)| := abs_sub _ _
      _ ≤ 539 / 16777216 * D := by linarith
  have e : b / d - N / D = (b * D - N * d) / (d * D) := by
    field_simp
    ring
  rw [e, abs_div, abs_of_pos (mul_pos hdpos hDpos), div_le_iff₀ (mul_pos hdpos hDpos)]
  calc |b * D - N * d| ≤ 539 / 16777216 * D := hnum
    _ ≤ 21 / 16777216 * (d * D) := by nlinarith

/-- Error propagation through the numerator `x * (27 + x2)` of the rational
branch of `soft_clip`, each operation carrying one `float` rounding error. -/
theorem pade_num_perturb (x x2 a b : ℝ) (hx : |x| ≤ 3)
    (h1 : |x2 - x * x| ≤ (|x * x| + 1 / 1099511627776) / 16777216)
    (h2 : |a - (27 + x2)| ≤ (|27 + x2| + 1 / 1099511627776) / 16777216)
    (h3 : |b - x * a| ≤ (|x * a| + 1 / 1099511627776) / 16777216) :
    |b - x * (27 + x * x)| ≤ 256 / 16777216 := by
  obtain ⟨hx1, hx2⟩ := abs_le.mp hx
  have ht0 : 0 ≤ x * x := mul_self_nonneg x
  have ht9 : x * x ≤ 9 := by nlinarith [hx1, hx2]
  rw [abs_of_nonneg ht0] at h1
  obtain ⟨E1a, E1b⟩ := abs_le.mp h1
  have B2 : |27 + x2| ≤ 37 := by rw [abs_le]; constructor <;> linarith
  obtain ⟨h2a, h2b⟩ := abs_le.mp h2
  have E2 : |a - (27 + x * x)| ≤ 48 / 16777216 := by
    rw [abs_le]; constructor <;> linarith
  obtain ⟨E2a, E2b⟩ := abs_le.mp E2
  have B3 : |x * a| ≤ 111 := by
    rw [abs_mul]
    have ha : |a| ≤ 37 := by rw [abs_le]; constructor <;> linarith
    calc |x| * |a| ≤ 3 * 37 := mul_le_mul hx ha (abs_nonneg _) (by norm_num)
      _ = 111 := by norm_num
  have D3 : |x * a - x * (27 + x * x)| ≤ 144 / 16777216 := by
    rw [← mul_sub, abs_mul]
    calc |x| * |a - (27 + x * x)| ≤ 3 * (48 / 16777216) :=
          mul_le_mul hx E2 (abs_nonneg _) (by norm_num)
      _ = 144 / 16777216 := by norm_num
  obtain ⟨h3a, h3b⟩ := abs_le.mp h3
  obtain ⟨D3a, D3b⟩ := abs_le.mp D3
  rw [abs_le]; constructor <;> linarith

/-- Error propagation through the denominator `27 + 9 * x2` of the rational
branch of `soft_clip`, each operation carrying one `float` rounding error. -/
theorem pade_den_perturb (x x2 c d : ℝ) (hx : |x| ≤ 3)
    (h1 : |x2 - x * x| ≤ (|x * x| + 1 / 1099511627776) / 16777216)
    (h4 : |c - 9 * x2| ≤ (|9 * x2| + 1 / 1099511627776) / 16777216)
    (h5 : |d - (27 + c)| ≤ (|27 + c| + 1 / 1099511627776) / 16777216) :
    |d - (27 + 9 * (x * x))| ≤ 283 / 16777216 := by
  obtain ⟨hx1, hx2⟩ := abs_le.mp hx
  have ht0 : 0 ≤ x * x := mul_self_nonneg x
  have ht9 : x * x ≤ 9 := by nlinarith [hx1, hx2]
  rw [abs_of_nonneg ht0] at h1
  obtain ⟨E1a, E1b⟩ := abs_le.mp h1
  have B4 : |9 * x2| ≤ 82 := by rw [abs_le]; constructor <;> linarith
  obtain ⟨h4a, h4b⟩ := abs_le.mp h4
  have E4 : |c - 9 * (x * x)| ≤ 173 / 16777216 := by
    rw [abs_le]; constructor <;> linarith
  obtain ⟨E4a, E4b⟩ := abs_le.mp E4
  have B5 : |27 + c| ≤ 109 := by rw [abs_le]; constructor <;> linarith
  obtain ⟨h5a, h5b⟩ := abs_le.mp h5
  rw [abs_le]; constructor <;> linarith

/-- On `[-3, 3]` the exact numerator of the Pade quotient is dominated by its
denominator. -/
theorem pade_num_le_den (x : ℝ) (hx : |x| ≤ 3) :
    |x * (27 + x * x)| ≤ 27 + 9 * (x * x) := by
  obtain ⟨hx1, hx2⟩ := abs_le.mp hx
  have e1 : 27 + 9 * (x * x) + x * (27 + x * x) = (3 + x) ^ 3 := by ring
  have e2 : 27 + 9 * (x * x) - x * (27 + x * x) = (3 - x) ^ 3 := by ring
  have p1 : 0 ≤ (3 + x) ^ 3 := pow_nonneg (by linarith) 3
  have p2 : 0 ≤ (3 - x) ^ 3 := pow_nonneg (by linarith) 3
  rw [abs_le]
  constructor <;> linarith

/-- Error propagation through the six operations of the rational branch of
`soft_clip`: if every intermediate value carries the rounding error of one
`float` operation, the result is within `2 ^ (-19)` of the exact quotient. -/
theorem pade_perturb (x x2 a b c d r : ℝ) (hx : |x| ≤ 3)
    (h1 : |x2 - x * x| ≤ (|x * x| + 1 / 1099511627776) / 16777216)
    (h2 : |a - (27 + x2)| ≤ (|27 + x2| + 1 / 1099511627776) / 16777216)
    (h3 : |b - x * a| ≤ (|x * a| + 1 / 1099511627776) / 16777216)
    (h4 : |c - 9 * x2| ≤ (|9 * x2| + 1 / 1099511627776) / 16777216)
    (h5 : |d - (27 + c)| ≤ (|27 + c| + 1 / 1099511627776) / 16777216)
    (h6 : |r - b / d| ≤ (|b / d| + 1 / 1099511627776) / 16777216) :
    |r - soft_clip_pade x| ≤ 1 / 524288 := by
  obtain ⟨hx1, hx2⟩ := abs_le.mp hx
  have E3 := pade_num_perturb x x2 a b hx h1 h2 h3
  have E5 := pade_den_perturb x x2 c d hx h1 h4 h5
  have hD : 27 ≤ 27 + 9 * (x * x) := by linarith [mul_self_nonneg x]
  have hN := pade_num_le_den x hx
  have hpade : soft_clip_pade x = x * (27 + x * x) / (27 + 9 * (x * x)) := rfl
  have hq : |b / d - soft_clip_pade x| ≤ 21 / 16777216 := by
    rw [hpade]
    exact quotient_close hD hN E3 E5
  have hp : |soft_clip_pade x| ≤ 1 := by
    rw [abs_le]
    exact ⟨neg_one_le_soft_clip_pade hx1, soft_clip_pade_le_one hx2⟩
  clear E3 E5 hN hD h1 h2 h3 h4 h5
  obtain ⟨hq1, hq2⟩ := abs_le.mp hq
  obtain ⟨hp1, hp2⟩ := abs_le.mp hp
  have B6 : |b / d| ≤ 2 := by rw [abs_le]; constructor <;> linarith
  obtain ⟨h6a, h6b⟩ := abs_le.mp h6
  rw [abs_le]; constructor <;> linarith

/-- Accuracy of the rational branch in `float` arithmetic: on `[-3, 3]` the six
rounded operations of `soft_clip` stay within `2 ^ (-19)` of the exact Pade
quotient. -/
theorem soft_clip_f32_pade_close (x : ℝ) (hx : |x| ≤ 3) :
    |f32 (f32 (x * f32 (27 + f32 (x * x))) / f32 (27 + f32 (9 * f32 (x * x))))
      - soft_clip_pade x| ≤ 1 / 524288 :=
  pade_perturb x (f32 (x * x)) (f32 (27 + f32 (x * x))) (f32 (x * f32 (27 + f32 (x * x))))
    (f32 (9 * f32 (x * x))) (f32 (27 + f32 (9 * f32 (x * x))))
    (f32 (f32 (x * f32 (27 + f32 (x * x))) / f32 (27 + f32 (9 * f32 (x * x))))) hx
    (f32_err _) (f32_err _) (f32_err _) (f32_err _) (f32_err _) (f32_err _)

/-- The constant `0.002f`: the `float` nearest to `0.002` is `8589935 / 2 ^ 32`,
a little above `0.002`. -/
theorem SMOOTH_COEFF_f32_eq : SMOOTH_COEFF_f32 = (8589935 / 4294967296 : ℝ) := by
  unfold SMOOTH_COEFF_f32
  rw [f32_eq_of (0.002 : ℝ) (-9) 8589935 (by norm_num) (by norm_num [abs_of_pos])
    (by norm_num [abs_of_pos]) (by norm_num [abs_lt])]
  norm_num

/-- Error propagation through the three operations of `smooth`: if every
intermediate value carries a relative error `2 ^ (-24)` and an absolute error
`s`, the result is within `2 ^ (-23) * M + 5 * s` of the exact update with
coefficient `0.002`, where `M` bounds the magnitudes of value and target. -/
theorem smooth_perturb (c t d i r M s : ℝ) (hc : |c| ≤ M) (ht : |t| ≤ M) (hs : 0 ≤ s)
    (h1 : |d - (t - c)| ≤ |t - c| / 16777216 + s)
    (h2 : |i - 8589935 / 4294967296 * d| ≤ |8589935 / 4294967296 * d| / 16777216 + s)
    (h3 : |r - (c + i)| ≤ |c + i| / 16777216 + s) :
    |r - smooth c t| ≤ M / 8388608 + 5 * s := by
  obtain ⟨hc1, hc2⟩ := abs_le.mp hc
  obtain ⟨ht1, ht2⟩ := abs_le.mp ht
  have hM : 0 ≤ M := le_trans (abs_nonneg c) hc
  have B1 : |t - c| ≤ 2 * M := by rw [abs_le]; constructor <;> linarith
  obtain ⟨h1a, h1b⟩ := abs_le.mp h1
  obtain ⟨b1, b2⟩ := abs_le.mp B1
  have Bd : |d| ≤ 2001 / 1000 * M + s := by
    rw [abs_le]; constructor <;> linarith
  obtain ⟨d1, d2⟩ := abs_le.mp Bd
  have B2 : |8589935 / 4294967296 * d| ≤ 43 / 10000 * M + s := by
    rw [abs_le]; constructor <;> linarith
  obtain ⟨h2a, h2b⟩ := abs_le.mp h2
  have B3 : |c + i| ≤ 10044 / 10000 * M + 3 * s := by
    rw [abs_le]; constructor <;> linarith
  obtain ⟨h3a, h3b⟩ := abs_le.mp h3
  have e : smooth c t = c + 1 / 500 * (t - c) := by
    simp only [smooth, SMOOTH_COEFF]
    norm_num
  rw [e, abs_le]
  constructor <;> linarith

/-- Accuracy of `smooth` in `float` arithmetic: the three rounded operations
stay within `2 ^ (-23) * M + 2 ^ (-147)` of the exact update. -/
theorem smooth_f32_close (c t M : ℝ) (hc : |c| ≤ M) (ht : |t| ≤ M) :
    |smooth_f32 c t - smooth c t| ≤ 2 ^ (-23 : ℤ) * M + 2 ^ (-147 : ℤ) := by
  have key : ∀ y : ℝ, |f32 y - y| ≤ |y| / 16777216 + 2 ^ (-150 : ℤ) := by
    intro y
    have h := f32_abs_sub_le y
    have e1 : (2 : ℝ) ^ (-24 : ℤ) = 1 / 16777216 := by norm_num
    rw [e1] at h
    linarith
  have hs : (0 : ℝ) ≤ 2 ^ (-150 : ℤ) := (zpow_pos (by norm_num) _).le
  have h := smooth_perturb c t (f32 (t - c)) (f32 (SMOOTH_COEFF_f32 * f32 (t - c)))
    (smooth_f32 c t) M (2 ^ (-150 : ℤ)) hc ht hs (key _)
    (by rw [← SMOOTH_COEFF_f32_eq]; exact key _) (key _)
  have e2 : (5 : ℝ) * 2 ^ (-150 : ℤ) ≤ 2 ^ (-147 : ℤ) := by norm_num
  have e3 : (2 : ℝ) ^ (-23 : ℤ) * M = M / 8388608 := by norm_num; ring
  rw [e3]
  linarith

/-! ## The smoother in `float` arithmetic -/

theorem SMOOTH_COEFF_f32_pos : (0 : ℝ) < SMOOTH_COEFF_f32 := by
  rw [SMOOTH_COEFF_f32_eq]; norm_num

theorem smooth_f32_self (c : ℝ) (hc : f32 c = c) : smooth_f32 c c = c := by
  unfold smooth_f32
  rw [sub_self, f32_zero, mul_zero, f32_zero, add_zero, hc]

/-- One `float` smoothing step commutes with negating value and target. -/
theorem smooth_f32_neg (c t : ℝ) : smooth_f32 (-c) (-t) = -smooth_f32 c t := by
  unfold smooth_f32
  rw [show -t - -c = -(t - c) by ring, f32_neg, mul_neg, f32_neg,
    show -c + -f32 (SMOOTH_COEFF_f32 * f32 (t - c)) = -(c + f32 (SMOOTH_COEFF_f32 * f32 (t - c)))
      by ring, f32_neg]

/-- The rounded increment of one smoothing step does not overshoot the
distance to the target. -/
theorem smooth_f32_increment_le (c t : ℝ) (hc : f32 c = c) (ht : f32 t = t) (h : c < t) :
    f32 (SMOOTH_COEFF_f32 * f32 (t - c)) ≤ t - c := by
  have hgap : (2 : ℝ) ^ (-149 : ℤ) ≤ t - c := f32_gap hc ht h
  have hs : (2 : ℝ) ^ (-149 : ℤ) = 2 * 2 ^ (-150 : ℤ) := by norm_num
  have hspos : (0 : ℝ) < 2 ^ (-150 : ℤ) := zpow_pos (by norm_num) _
  have e1 : (2 : ℝ) ^ (-24 : ℤ) = 1 / 16777216 := by norm_num
  have hd0 : 0 ≤ f32 (t - c) := f32_nonneg (by linarith)
  have h1 := f32_abs_sub_le (t - c)
  rw [abs_of_pos (by linarith : 0 < t - c), e1] at h1
  have h2 := f32_abs_sub_le (SMOOTH_COEFF_f32 * f32 (t - c))
  rw [SMOOTH_COEFF_f32_eq, abs_of_nonneg (mul_nonneg (by norm_num) hd0), e1] at h2
  rw [SMOOTH_COEFF_f32_eq]
  obtain ⟨h1a, h1b⟩ := abs_le.mp h1
  obtain ⟨h2a, h2b⟩ := abs_le.mp h2
  generalize f32 (8589935 / 4294967296 * f32 (t - c)) = i at h2a h2b ⊢
  generalize f32 (t - c) = d at h1a h1b h2a h2b hd0
  generalize (2 : ℝ) ^ (-150 : ℤ) = s at hs hspos h1a h1b h2a h2b
  linarith

/-- One `float` smoothing step from a `float` value toward a `float` target at
or above it lands between the two. -/
theorem smooth_f32_between (c t : ℝ) (hc : f32 c = c) (ht : f32 t = t) (h : c ≤ t) :
    c ≤ smooth_f32 c t ∧ smooth_f32 c t ≤ t := by
  rcases eq_or_lt_of_le h with he | hlt
  · subst he
    rw [smooth_f32_self c hc]
    exact ⟨le_refl _, le_refl _⟩
  · have hi0 : 0 ≤ f32 (SMOOTH_COEFF_f32 * f32 (t - c)) :=
      f32_nonneg (mul_nonneg SMOOTH_COEFF_f32_pos.le (f32_nonneg (by linarith)))
    have hi1 := smooth_f32_increment_le c t hc ht hlt
    constructor
    · have := f32_mono (show c ≤ c + f32 (SMOOTH_COEFF_f32 * f32 (t - c)) by linarith)
      rwa [hc] at this
    · have := f32_mono (show c + f32 (SMOOTH_COEFF_f32 * f32 (t - c)) ≤ t by linarith)
      rwa [ht] at this

/-- One `float` smoothing step lands between value and target, whichever is
larger. -/
theorem smooth_f32_between_abs (c t : ℝ) (hc : f32 c = c) (ht : f32 t = t) :
    |smooth_f32 c t - t| ≤ |c - t| ∧ |smooth_f32 c t| ≤ max |c| |t| := by
  rcases le_total c t with h | h
  · obtain ⟨h1, h2⟩ := smooth_f32_between c t hc ht h
    constructor
    · rw [abs_of_nonpos (by linarith), abs_of_nonpos (by linarith)]
      linarith
    · rw [abs_le]
      constructor
      · have := neg_abs_le c
        have := le_max_left |c| |t|
        linarith
      · have := le_abs_self t
        have := le_max_right |c| |t|
        linarith
  · have hcn : f32 (-c) = -c := by rw [f32_neg, hc]
    have htn : f32 (-t) = -t := by rw [f32_neg, ht]
    obtain ⟨h1, h2⟩ := smooth_f32_between (-c) (-t) hcn htn (by linarith)
    rw [smooth_f32_neg] at h1 h2
    constructor
    · rw [abs_of_nonneg (by linarith), abs_of_nonneg (by linarith)]
      linarith
    · rw [abs_le]
      constructor
      · have := neg_abs_le t
        have := le_max_right |c| |t|
        linarith
      · have := le_abs_self c
        have := le_max_left |c| |t|
        linarith

theorem f32_smooth_f32 (c t : ℝ) : f32 (smooth_f32 c t) = smooth_f32 c t := by
  unfold smooth_f32
  exact f32_f32 _

/-- Every iterate of the `float` smoother is a `float` and stays within the
magnitudes of start and target. -/
theorem smooth_f32_n_bounds (c0 t : ℝ) (hc : f32 c0 = c0) (ht : f32 t = t) (n : Nat) :
    f32 (smooth_f32_n t n c0) = smooth_f32_n t n c0 ∧
      |smooth_f32_n t n c0| ≤ max |c0| |t| := by
  induction n with
  | zero => exact ⟨hc, le_max_left _ _⟩
  | succ n ih =>
    obtain ⟨h1, h2⟩ := ih
    refine ⟨f32_smooth_f32 _ _, ?_⟩
    have := (smooth_f32_between_abs (smooth_f32_n t n c0) t h1 ht).2
    exact le_trans this (max_le h2 (le_max_right _ _))

/-- One `float` smoothing step contracts the error by `1 - 0.002` up to the
rounding error. -/
theorem smooth_f32_error_step (c t M : ℝ) (hc : |c| ≤ M) (ht : |t| ≤ M) :
    |(smooth_f32 c t - t) - (1 - SMOOTH_COEFF ℝ) * (c - t)|
      ≤ 2 ^ (-23 : ℤ) * M + 2 ^ (-147 : ℤ) := by
  have h := smooth_f32_close c t M hc ht
  have e : (smooth_f32 c t - t) - (1 - SMOOTH_COEFF ℝ) * (c - t)
      = smooth_f32 c t - smooth c t := by
    have := smooth_sub_target c t
    linarith
  rw [e]
  exact h

/-- Evaluation of the `float` limiter just below the upper threshold: the result is `1 + 2 ^ (-23)`. -/
theorem soft_clip_f32_eval_overshoot : soft_clip_f32 ((12512681 / 4194304) : ℝ) = (8388609 / 8388608) := by
  have h1 : f32 ((12512681 / 4194304) * (12512681 / 4194304) : ℝ) = (9332131 / 1048576) := by
    rw [f32_eq_of _ (3) (9332131) (by norm_num) (by norm_num [abs_of_pos]) (by norm_num [abs_of_pos])
      (by norm_num [abs_lt])]
    norm_num
  have h2 : f32 (27 + (9332131 / 1048576) : ℝ) = (9410921 / 262144) := by
    rw [f32_eq_of _ (5) (9410921) (by norm_num) (by norm_num [abs_of_pos]) (by norm_num [abs_of_pos])
      (by norm_num [abs_lt])]
    norm_num
  have h3 : f32 ((12512681 / 4194304) * (9410921 / 262144) : ℝ) = (1754699 / 16384) := by
    rw [f32_eq_of _ (6) (14037592) (by norm_num) (by norm_num [abs_of_pos]) (by norm_num [abs_of_pos])
      (by norm_num [abs_lt])]
    norm_num
  have h4 : f32 (9 * (9332131 / 1048576) : ℝ) = (10498647 / 131072) := by
    rw [f32_eq_of _ (6) (10498647) (by norm_num) (by norm_num [abs_of_pos]) (by norm_num [abs_of_pos])
      (by norm_num [abs_lt])]
    norm_num
  have h5 : f32 (27 + (10498647 / 131072) : ℝ) = (14037591 / 131072) := by
    rw [f32_eq_of _ (6) (14037591) (by norm_num) (by norm_num [abs_of_pos]) (by norm_num [abs_of_pos])
      (by norm_num [abs_lt])]
    norm_num
  have h6 : f32 ((1754699 / 16384) / (14037591 / 131072) : ℝ) = (8388609 / 8388608) := by
    rw [f32_eq_of _ (0) (8388609) (by norm_num) (by norm_num [abs_of_pos]) (by norm_num [abs_of_pos])
      (by norm_num [abs_lt])]
    norm_num
  have g1 : ¬ ((12512681 / 4194304) : ℝ) > 3 := by norm_num
  have g2 : ¬ ((12512681 / 4194304) : ℝ) < -3 := by norm_num
  simp only [soft_clip_f32, g1, g2, if_false]
  rw [h1, h2, h3, h4, h5, h6]

/-- Evaluation of the `float` limiter at the upper threshold. -/
theorem soft_clip_f32_eval_three : soft_clip_f32 (3 : ℝ) = 1 := by
  have h1 : f32 (3 * 3 : ℝ) = 9 := by
    rw [f32_eq_of _ (3) (9437184) (by norm_num) (by norm_num [abs_of_pos]) (by norm_num [abs_of_pos])
      (by norm_num [abs_lt])]
    norm_num
  have h2 : f32 (27 + 9 : ℝ) = 36 := by
    rw [f32_eq_of _ (5) (9437184) (by norm_num) (by norm_num [abs_of_pos]) (by norm_num [abs_of_pos])
      (by norm_num [abs_lt])]
    norm_num
  have h3 : f32 (3 * 36 : ℝ) = 108 := by
    rw [f32_eq_of _ (6) (14155776) (by norm_num) (by norm_num [abs_of_pos]) (by norm_num [abs_of_pos])
      (by norm_num [abs_lt])]
    norm_num
  have h4 : f32 (9 * 9 : ℝ) = 81 := by
    rw [f32_eq_of _ (6) (10616832) (by norm_num) (by norm_num [abs_of_pos]) (by norm_num [abs_of_pos])
      (by norm_num [abs_lt])]
    norm_num
  have h5 : f32 (27 + 81 : ℝ) = 108 := by
    rw [f32_eq_of _ (6) (14155776) (by norm_num) (by norm_num [abs_of_pos]) (by norm_num [abs_of_pos])
      (by norm_num [abs_lt])]
    norm_num
  have h6 : f32 (108 / 108 : ℝ) = 1 := by
    rw [f32_eq_of _ (0) (8388608) (by norm_num) (by norm_num [abs_of_pos]) (by norm_num [abs_of_pos])
      (by norm_num [abs_lt])]
    norm_num
  have g1 : ¬ (3 : ℝ) > 3 := by norm_num
  have g2 : ¬ (3 : ℝ) < -3 := by norm_num
  simp only [soft_clip_f32, g1, g2, if_false]
  rw [h1, h2, h3, h4, h5, h6]

/-- Evaluation of the `float` limiter at a small input: the result is one unit in the last place above the input. -/
theorem soft_clip_f32_eval_small : soft_clip_f32 ((5188795 / 34359738368) : ℝ) = (10377591 / 68719476736) := by
  have h1 : f32 ((5188795 / 34359738368) * (5188795 / 34359738368) : ℝ) = (6419085 / 281474976710656) := by
    rw [f32_eq_of _ (-26) (12838170) (by norm_num) (by norm_num [abs_of_pos]) (by norm_num [abs_of_pos])
      (by norm_num [abs_lt])]
    norm_num
  have h2 : f32 (27 + (6419085 / 281474976710656) : ℝ) = 27 := by
    rw [f32_eq_of _ (4) (14155776) (by norm_num) (by norm_num [abs_of_pos]) (by norm_num [abs_of_pos])
      (by norm_num [abs_lt])]
    norm_num
  have h3 : f32 ((5188795 / 34359738368) * 27 : ℝ) = (2189023 / 536870912) := by
    rw [f32_eq_of _ (-8) (8756092) (by norm_num) (by norm_num [abs_of_pos]) (by norm_num [abs_of_pos])
      (by norm_num [abs_lt])]
    norm_num
  have h4 : f32 (9 * (6419085 / 281474976710656) : ℝ) = (14442941 / 70368744177664) := by
    rw [f32_eq_of _ (-23) (14442941) (by norm_num) (by norm_num [abs_of_pos]) (by norm_num [abs_of_pos])
      (by norm_num [abs_lt])]
    norm_num
  have h5 : f32 (27 + (14442941 / 70368744177664) : ℝ) = 27 := by
    rw [f32_eq_of _ (4) (14155776) (by norm_num) (by norm_num [abs_of_pos]) (by norm_num [abs_of_pos])
      (by norm_num [abs_lt])]
    norm_num
  have h6 : f32 ((2189023 / 536870912) / 27 : ℝ) = (10377591 / 68719476736) := by
    rw [f32_eq_of _ (-13) (10377591) (by norm_num) (by norm_num [abs_of_pos]) (by norm_num [abs_of_pos])
      (by norm_num [abs_lt])]
    norm_num
  have g1 : ¬ ((5188795 / 34359738368) : ℝ) > 3 := by norm_num
  have g2 : ¬ ((5188795 / 34359738368) : ℝ) < -3 := by norm_num
  simp only [soft_clip_f32, g1, g2, if_false]
  rw [h1, h2, h3, h4, h5, h6]

/-- Evaluation of the `float` limiter at `2 ^ (-13)`: the input comes back unchanged. -/
theorem soft_clip_f32_eval_pow : soft_clip_f32 ((1 / 8192) : ℝ) = (1 / 8192) := by
  have h1 : f32 ((1 / 8192) * (1 / 8192) : ℝ) = (1 / 67108864) := by
    rw [f32_eq_of _ (-26) (8388608) (by norm_num) (by norm_num [abs_of_pos]) (by norm_num [abs_of_pos])
      (by norm_num [abs_lt])]
    norm_num
  have h2 : f32 (27 + (1 / 67108864) : ℝ) = 27 := by
    rw [f32_eq_of _ (4) (14155776) (by norm_num) (by norm_num [abs_of_pos]) (by norm_num [abs_of_pos])
      (by norm_num [abs_lt])]
    norm_num
  have h3 : f32 ((1 / 8192) * 27 : ℝ) = (27 / 8192) := by
    rw [f32_eq_of _ (-9) (14155776) (by norm_num) (by norm_num [abs_of_pos]) (by norm_num [abs_of_pos])
      (by norm_num [abs_lt])]
    norm_num
  have h4 : f32 (9 * (1 / 67108864) : ℝ) = (9 / 67108864) := by
    rw [f32_eq_of _ (-23) (9437184) (by norm_num) (by norm_num [abs_of_pos]) (by norm_num [abs_of_pos])
      (by norm_num [abs_lt])]
    norm_num
  have h5 : f32 (27 + (9 / 67108864) : ℝ) = 27 := by
    rw [f32_eq_of _ (4) (14155776) (by norm_num) (by norm_num [abs_of_pos]) (by norm_num [abs_of_pos])
      (by norm_num [abs_lt])]
    norm_num
  have h6 : f32 ((27 / 8192) / 27 : ℝ) = (1 / 8192) := by
    rw [f32_eq_of _ (-13) (8388608) (by norm_num) (by norm_num [abs_of_pos]) (by norm_num [abs_of_pos])
      (by norm_num [abs_lt])]
    norm_num
  have g1 : ¬ ((1 / 8192) : ℝ) > 3 := by norm_num
  have g2 : ¬ ((1 / 8192) : ℝ) < -3 := by norm_num
  simp only [soft_clip_f32, g1, g2, if_false]
  rw [h1, h2, h3, h4, h5, h6]

/-- Evaluation of the `float` limiter at the lower of two neighbouring inputs. -/
theorem soft_clip_f32_eval_lo : soft_clip_f32 ((2706001 / 268435456) : ℝ) = (10823679 / 1073741824) := by
  have h1 : f32 ((2706001 / 268435456) * (2706001 / 268435456) : ℝ) = (13966449 / 137438953472) := by
    rw [f32_eq_of _ (-14) (13966449) (by norm_num) (by norm_num [abs_of_pos]) (by norm_num [abs_of_pos])
      (by norm_num [abs_lt])]
    norm_num
  have h2 : f32 (27 + (13966449 / 137438953472) : ℝ) = (14155829 / 524288) := by
    rw [f32_eq_of _ (4) (14155829) (by norm_num) (by norm_num [abs_of_pos]) (by norm_num [abs_of_pos])
      (by norm_num [abs_lt])]
    norm_num
  have h3 : f32 ((2706001 / 268435456) * (14155829 / 524288) : ℝ) = (2283197 / 8388608) := by
    rw [f32_eq_of _ (-2) (9132788) (by norm_num) (by norm_num [abs_of_pos]) (by norm_num [abs_of_pos])
      (by norm_num [abs_lt])]
    norm_num
  have h4 : f32 (9 * (13966449 / 137438953472) : ℝ) = (15712255 / 17179869184) := by
    rw [f32_eq_of _ (-11) (15712255) (by norm_num) (by norm_num [abs_of_pos]) (by norm_num [abs_of_pos])
      (by norm_num [abs_lt])]
    norm_num
  have h5 : f32 (27 + (15712255 / 17179869184) : ℝ) = (14156255 / 524288) := by
    rw [f32_eq_of _ (4) (14156255) (by norm_num) (by norm_num [abs_of_pos]) (by norm_num [abs_of_pos])
      (by norm_num [abs_lt])]
    norm_num
  have h6 : f32 ((2283197 / 8388608) / (14156255 / 524288) : ℝ) = (10823679 / 1073741824) := by
    rw [f32_eq_of _ (-7) (10823679) (by norm_num) (by norm_num [abs_of_pos]) (by norm_num [abs_of_pos])
      (by norm_num [abs_lt])]
    norm_num
  have g1 : ¬ ((2706001 / 268435456) : ℝ) > 3 := by norm_num
  have g2 : ¬ ((2706001 / 268435456) : ℝ) < -3 := by norm_num
  simp only [soft_clip_f32, g1, g2, if_false]
  rw [h1, h2, h3, h4, h5, h6]

/-- Evaluation of the `float` limiter at the upper of two neighbouring inputs. -/
theorem soft_clip_f32_eval_hi : soft_clip_f32 ((10824005 / 1073741824) : ℝ) = (5411839 / 536870912) := by
  have h1 : f32 ((10824005 / 1073741824) * (10824005 / 1073741824) : ℝ) = (13966451 / 137438953472) := by
    rw [f32_eq_of _ (-14) (13966451) (by norm_num) (by norm_num [abs_of_pos]) (by norm_num [abs_of_pos])
      (by norm_num [abs_lt])]
    norm_num
  have h2 : f32 (27 + (13966451 / 137438953472) : ℝ) = (14155829 / 524288) := by
    rw [f32_eq_of _ (4) (14155829) (by norm_num) (by norm_num [abs_of_pos]) (by norm_num [abs_of_pos])
      (by norm_num [abs_lt])]
    norm_num
  have h3 : f32 ((10824005 / 1073741824) * (14155829 / 524288) : ℝ) = (2283197 / 8388608) := by
    rw [f32_eq_of _ (-2) (9132788) (by norm_num) (by norm_num [abs_of_pos]) (by norm_num [abs_of_pos])
      (by norm_num [abs_lt])]
    norm_num
  have h4 : f32 (9 * (13966451 / 137438953472) : ℝ) = (15712257 / 17179869184) := by
    rw [f32_eq_of _ (-11) (15712257) (by norm_num) (by norm_num [abs_of_pos]) (by norm_num [abs_of_pos])
      (by norm_num [abs_lt])]
    norm_num
  have h5 : f32 (27 + (15712257 / 17179869184) : ℝ) = (442383 / 16384) := by
    rw [f32_eq_of _ (4) (14156256) (by norm_num) (by norm_num [abs_of_pos]) (by norm_num [abs_of_pos])
      (by norm_num [abs_lt])]
    norm_num
  have h6 : f32 ((2283197 / 8388608) / (442383 / 16384) : ℝ) = (5411839 / 536870912) := by
    rw [f32_eq_of _ (-7) (10823678) (by norm_num) (by norm_num [abs_of_pos]) (by norm_num [abs_of_pos])
      (by norm_num [abs_lt])]
    norm_num
  have g1 : ¬ ((10824005 / 1073741824) : ℝ) > 3 := by norm_num
  have g2 : ¬ ((10824005 / 1073741824) : ℝ) < -3 := by norm_num
  simp only [soft_clip_f32, g1, g2, if_false]
  rw [h1, h2, h3, h4, h5, h6]

/-- Evaluation of one `float` smoothing step at a stalled value below the target `1`. -/
theorem smooth_f32_eval_stall : smooth_f32 ((8388483 / 8388608) : ℝ) 1 = (8388483 / 8388608) := by
  have h1 : f32 (1 - (8388483 / 8388608) : ℝ) = (125 / 8388608) := by
    rw [f32_eq_of _ (-17) (16384000) (by norm_num) (by norm_num [abs_of_pos]) (by norm_num [abs_of_pos])
      (by norm_num [abs_lt])]
    norm_num
  have h2 : f32 ((8589935 / 4294967296) * (125 / 8388608) : ℝ) = (1 / 33554432) := by
    rw [f32_eq_of _ (-25) (8388608) (by norm_num) (by norm_num [abs_of_pos]) (by norm_num [abs_of_pos])
      (by norm_num [abs_lt])]
    norm_num
  have h3 : f32 ((8388483 / 8388608) + (1 / 33554432) : ℝ) = (8388483 / 8388608) := by
    rw [f32_eq_of_tie_even _ (-1) (16776966) (by norm_num) (by norm_num [abs_of_pos]) (by norm_num [abs_of_pos])
      (by norm_num) (by decide)]
    norm_num
  unfold smooth_f32
  rw [SMOOTH_COEFF_f32_eq, h1, h2, h3]

/-- Evaluation of one `float` smoothing step whose move is one unit in the last place. -/
theorem smooth_f32_eval_jump : smooth_f32 ((1 / 2) : ℝ) (8388859 / 16777216) = (8388609 / 16777216) := by
  have h1 : f32 ((8388859 / 16777216) - (1 / 2) : ℝ) = (251 / 16777216) := by
    rw [f32_eq_of _ (-17) (16449536) (by norm_num) (by norm_num [abs_of_pos]) (by norm_num [abs_of_pos])
      (by norm_num [abs_lt])]
    norm_num
  have h2 : f32 ((8589935 / 4294967296) * (251 / 16777216) : ℝ) = (8422163 / 281474976710656) := by
    rw [f32_eq_of _ (-25) (8422163) (by norm_num) (by norm_num [abs_of_pos]) (by norm_num [abs_of_pos])
      (by norm_num [abs_lt])]
    norm_num
  have h3 : f32 ((1 / 2) + (8422163 / 281474976710656) : ℝ) = (8388609 / 16777216) := by
    rw [f32_eq_of _ (-1) (8388609) (by norm_num) (by norm_num [abs_of_pos]) (by norm_num [abs_of_pos])
      (by norm_num [abs_lt])]
    norm_num
  unfold smooth_f32
  rw [SMOOTH_COEFF_f32_eq, h1, h2, h3]

/-- The rounding floor of the `float` smoother: after `n` steps the error is at
most the geometric term plus `500` times the rounding error of one step. -/
theorem smooth_f32_n_error_le (c0 t : ℝ) (hc : f32 c0 = c0) (ht : f32 t = t) (n : Nat) :
    |smooth_f32_n t n c0 - t|
      ≤ (1 - SMOOTH_COEFF ℝ) ^ n * |c0 - t|
        + 500 * (2 ^ (-23 : ℤ) * max |c0| |t| + 2 ^ (-147 : ℤ)) := by
  have hq0 : (0 : ℝ) ≤ 1 - SMOOTH_COEFF ℝ := by norm_num [SMOOTH_COEFF]
  have hqv : (1 : ℝ) - SMOOTH_COEFF ℝ = 499 / 500 := by norm_num [SMOOTH_COEFF]
  have hM : 0 ≤ max |c0| |t| := le_trans (abs_nonneg c0) (le_max_left _ _)
  have he : (0 : ℝ) ≤ 2 ^ (-23 : ℤ) * max |c0| |t| + 2 ^ (-147 : ℤ) :=
    add_nonneg (mul_nonneg (zpow_pos (by norm_num) _).le hM) (zpow_pos (by norm_num) _).le
  induction n with
  | zero =>
    simp only [smooth_f32_n, pow_zero, one_mul]
    linarith
  | succ n ih =>
    obtain ⟨_, hb⟩ := smooth_f32_n_bounds c0 t hc ht n
    have hstep := smooth_f32_error_step (smooth_f32_n t n c0) t (max |c0| |t|) hb
      (le_max_right _ _)
    have hmul : |(1 - SMOOTH_COEFF ℝ) * (smooth_f32_n t n c0 - t)|
        ≤ (1 - SMOOTH_COEFF ℝ) * ((1 - SMOOTH_COEFF ℝ) ^ n * |c0 - t|
          + 500 * (2 ^ (-23 : ℤ) * max |c0| |t| + 2 ^ (-147 : ℤ))) := by
      rw [abs_mul, abs_of_nonneg hq0]
      exact mul_le_mul_of_nonneg_left ih hq0
    have htri : |smooth_f32_n t (n + 1) c0 - t|
        ≤ |(smooth_f32 (smooth_f32_n t n c0) t - t)
            - (1 - SMOOTH_COEFF ℝ) * (smooth_f32_n t n c0 - t)|
          + |(1 - SMOOTH_COEFF ℝ) * (smooth_f32_n t n c0 - t)| := by
      have e : smooth_f32_n t (n + 1) c0 - t
          = ((smooth_f32 (smooth_f32_n t n c0) t - t)
              - (1 - SMOOTH_COEFF ℝ) * (smooth_f32_n t n c0 - t))
            + (1 - SMOOTH_COEFF ℝ) * (smooth_f32_n t n c0 - t) := by
        simp only [smooth_f32_n]
        ring
      rw [e]
      exact abs_add _ _
    have hpow : (1 - SMOOTH_COEFF ℝ) ^ (n + 1) * |c0 - t|
        = (1 - SMOOTH_COEFF ℝ) * ((1 - SMOOTH_COEFF ℝ) ^ n * |c0 - t|) := by
      rw [pow_succ]; ring
    rw [hpow]
    rw [hqv] at hmul htri hstep ⊢
    generalize (2 : ℝ) ^ (-23 : ℤ) * max |c0| |t| + 2 ^ (-147 : ℤ) = eps at *
    generalize (499 / 500 : ℝ) ^ n * |c0 - t| = g at *
    linarith

theorem f32_one : f32 (1 : ℝ) = 1 := by
  rw [f32_eq_of (1 : ℝ) 0 8388608 (by norm_num) (by norm_num) (by norm_num) (by norm_num)]
  norm_num

theorem f32_half : f32 (1 / 2 : ℝ) = 1 / 2 := by
  rw [f32_eq_of (1 / 2 : ℝ) (-1) 8388608 (by norm_num) (by norm_num [abs_of_pos])
    (by norm_num [abs_of_pos]) (by norm_num)]
  norm_num

/-- C3, as stated, fails: in `float` arithmetic the smoother stalls short of the
target.  From `c0 = 1 - 125 * 2 ^ (-23)` toward `t = 1` one step returns `c0`
itself, so the error stays at `125 * 2 ^ (-23)` and does not tend to `0`. -/
theorem smooth_f32_stalls :
    smooth_f32 (8388483 / 8388608 : ℝ) 1 = 8388483 / 8388608 ∧
      (∀ n : Nat, |smooth_f32_n 1 n (8388483 / 8388608 : ℝ) - 1| = 125 / 8388608) ∧
      ¬ Filter.Tendsto (fun n : Nat => |smooth_f32_n 1 n (8388483 / 8388608 : ℝ) - 1|)
        Filter.atTop (nhds 0) := by
  have hfix : ∀ n : Nat, smooth_f32_n 1 n (8388483 / 8388608 : ℝ) = 8388483 / 8388608 := by
    intro n
    induction n with
    | zero => rfl
    | succ n ih => rw [smooth_f32_n, ih, smooth_f32_eval_stall]
  have herr : ∀ n : Nat, |smooth_f32_n 1 n (8388483 / 8388608 : ℝ) - 1| = 125 / 8388608 := by
    intro n
    rw [hfix n]
    norm_num [abs_of_neg]
  refine ⟨smooth_f32_eval_stall, herr, ?_⟩
  intro h
  have hconst : (fun n : Nat => |smooth_f32_n 1 n (8388483 / 8388608 : ℝ) - 1|)
      = fun _ => (125 / 8388608 : ℝ) := funext herr
  rw [hconst] at h
  have := tendsto_nhds_unique h tendsto_const_nhds
  norm_num at this

/-- C3, amended. Smoother convergence in `float` arithmetic: for every `float`
start `c0` and constant `float` target `t` of magnitude at most `2 ^ 126` (so
that nothing overflows), the
iterates `c (n + 1) = smooth (c n) t` satisfy `|c (n + 1) - t| ≤ |c n - t|` for
every `n`, and the error decays geometrically down to a rounding floor:
`|c n - t| ≤ (1 - 0.002) ^ n * |c0 - t| + 2 ^ (-14) * max |c0| |t| + 2 ^ (-138)`. -/
theorem smooth_f32_converges_to_floor (c0 t : ℝ) (hc : f32 c0 = c0) (ht : f32 t = t)
    (_hcb : |c0| ≤ 2 ^ 126) (_htb : |t| ≤ 2 ^ 126) :
    (∀ n : Nat, smooth_f32_n t (n + 1) c0 = smooth_f32 (smooth_f32_n t n c0) t) ∧
      (∀ n : Nat, |smooth_f32_n t (n + 1) c0 - t| ≤ |smooth_f32_n t n c0 - t|) ∧
      ∀ n : Nat, |smooth_f32_n t n c0 - t|
        ≤ (1 - SMOOTH_COEFF ℝ) ^ n * |c0 - t| + 2 ^ (-14 : ℤ) * max |c0| |t|
          + 2 ^ (-138 : ℤ) := by
  refine ⟨fun _ => rfl, ?_, ?_⟩
  · intro n
    exact (smooth_f32_between_abs _ t (smooth_f32_n_bounds c0 t hc ht n).1 ht).1
  · intro n
    have h := smooth_f32_n_error_le c0 t hc ht n
    have hM : 0 ≤ max |c0| |t| := le_trans (abs_nonneg c0) (le_max_left _ _)
    have e1 : (500 : ℝ) * (2 ^ (-23 : ℤ) * max |c0| |t| + 2 ^ (-147 : ℤ))
        ≤ 2 ^ (-14 : ℤ) * max |c0| |t| + 2 ^ (-138 : ℤ) := by
      have a : (500 : ℝ) * 2 ^ (-23 : ℤ) ≤ 2 ^ (-14 : ℤ) := by norm_num
      have b : (500 : ℝ) * 2 ^ (-147 : ℤ) ≤ 2 ^ (-138 : ℤ) := by norm_num
      have := mul_le_mul_of_nonneg_right a hM
      linarith
    linarith

theorem smooth_f32_converges_to_floor_witness :
    (∀ n : Nat, smooth_f32_n 1 (n + 1) (0 : ℝ) = smooth_f32 (smooth_f32_n 1 n 0) 1) ∧
      (∀ n : Nat, |smooth_f32_n 1 (n + 1) (0 : ℝ) - 1| ≤ |smooth_f32_n 1 n (0 : ℝ) - 1|) ∧
      ∀ n : Nat, |smooth_f32_n 1 n (0 : ℝ) - 1|
        ≤ (1 - SMOOTH_COEFF ℝ) ^ n * |(0 : ℝ) - 1| + 2 ^ (-14 : ℤ) * max |(0 : ℝ)| |(1 : ℝ)|
          + 2 ^ (-138 : ℤ) :=
  smooth_f32_converges_to_floor 0 1 f32_zero f32_one (by norm_num) (by norm_num)

/-- C11, as stated, fails: with `c = 0.5` and `t = 0.5 + 251 * 2 ^ (-24)` one
`float` step moves the value by one unit in the last place, `2 ^ (-24)`, about
twice `alpha * |t - c|`, for the stored coefficient as for `0.002`. -/
theorem smooth_f32_jump_exceeds :
    smooth_f32 (1 / 2 : ℝ) (8388859 / 16777216) = 8388609 / 16777216 ∧
      ¬ |smooth_f32 (1 / 2 : ℝ) (8388859 / 16777216) - 1 / 2|
        ≤ SMOOTH_COEFF_f32 * |(8388859 / 16777216 : ℝ) - 1 / 2| ∧
      ¬ |smooth_f32 (1 / 2 : ℝ) (8388859 / 16777216) - 1 / 2|
        ≤ SMOOTH_COEFF ℝ * |(8388859 / 16777216 : ℝ) - 1 / 2| := by
  refine ⟨smooth_f32_eval_jump, ?_, ?_⟩
  · rw [smooth_f32_eval_jump, SMOOTH_COEFF_f32_eq]
    norm_num [abs_of_pos]
  · rw [smooth_f32_eval_jump]
    norm_num [abs_of_pos, SMOOTH_COEFF]

/-- C11, amended. Smoother continuity bound in `float` arithmetic: for every
current value `c` and target `t` of magnitude at most `2 ^ 126`,
`|smooth c t - c| ≤ alpha * |t - c| + 2 ^ (-23) * max |c| |t| + 2 ^ (-147)` with
`alpha = 0.002`: one update moves the value by at most `alpha` times its
distance to the target, up to the rounding error of the three operations. -/
theorem smooth_f32_jump_le (c t : ℝ) (_hcb : |c| ≤ 2 ^ 126) (_htb : |t| ≤ 2 ^ 126) :
    |smooth_f32 c t - c|
      ≤ SMOOTH_COEFF ℝ * |t - c| + 2 ^ (-23 : ℤ) * max |c| |t| + 2 ^ (-147 : ℤ) := by
  have h1 := smooth_f32_close c t (max |c| |t|) (le_max_left _ _) (le_max_right _ _)
  have h2 : |smooth c t - c| = SMOOTH_COEFF ℝ * |t - c| := by
    rw [smooth_sub_current, abs_mul, abs_of_nonneg SMOOTH_COEFF_nonneg]
  have h3 : |smooth_f32 c t - c| ≤ |smooth_f32 c t - smooth c t| + |smooth c t - c| := by
    have := abs_add (smooth_f32 c t - smooth c t) (smooth c t - c)
    rwa [sub_add_sub_cancel] at this
  linarith

theorem smooth_f32_jump_le_witness :
    |smooth_f32 (1 / 2 : ℝ) (8388859 / 16777216) - 1 / 2|
      ≤ SMOOTH_COEFF ℝ * |(8388859 / 16777216 : ℝ) - 1 / 2|
        + 2 ^ (-23 : ℤ) * max |(1 / 2 : ℝ)| |(8388859 / 16777216 : ℝ)| + 2 ^ (-147 : ℤ) :=
  smooth_f32_jump_le (1 / 2) (8388859 / 16777216) (by norm_num [abs_of_pos])
    (by norm_num [abs_of_pos])

/-! ## The limiter in `float` arithmetic -/

theorem soft_clip_f32_of_gt {x : ℝ} (h : 3 < x) : soft_clip_f32 x = 1 := by
  simp only [soft_clip_f32, gt_iff_lt, h, if_true]

theorem soft_clip_f32_of_lt {x : ℝ} (h : x < -3) : soft_clip_f32 x = -1 := by
  have h1 : ¬ 3 < x := by intro h3; linarith
  simp only [soft_clip_f32, gt_iff_lt, h1, h, if_true, if_false]

theorem soft_clip_f32_of_abs_le {x : ℝ} (h : |x| ≤ 3) :
    soft_clip_f32 x
      = f32 (f32 (x * f32 (27 + f32 (x * x))) / f32 (27 + f32 (9 * f32 (x * x)))) := by
  have h1 : ¬ x > 3 := not_lt.mpr (le_trans (le_abs_self x) h)
  have h2 : ¬ x < -3 := not_lt.mpr (by linarith [neg_abs_le x])
  simp only [soft_clip_f32, h1, h2, if_false]

/-- Accuracy of the `float` limiter: it stays within `2 ^ (-19)` of the exact
limiter, and agrees with it beyond the thresholds. -/
theorem soft_clip_f32_close (x : ℝ) : |soft_clip_f32 x - soft_clip x| ≤ 1 / 524288 := by
  rcases lt_or_le 3 x with h | h
  · rw [soft_clip_f32_of_gt h, soft_clip_of_gt h, sub_self, abs_zero]
    norm_num
  · rcases lt_or_le x (-3) with hl | hl
    · rw [soft_clip_f32_of_lt hl, soft_clip_of_lt hl, sub_self, abs_zero]
      norm_num
    · have habs : |x| ≤ 3 := abs_le.mpr ⟨hl, h⟩
      rw [soft_clip_f32_of_abs_le habs, soft_clip_of_abs_le habs]
      exact soft_clip_f32_pade_close x habs

/-- The overshoot of the `float` limiter above full scale is at most
`2 ^ (-19)`. -/
theorem soft_clip_f32_abs_le (x : ℝ) : |soft_clip_f32 x| ≤ 1 + 1 / 524288 := by
  have h := abs_le.mp (soft_clip_f32_close x)
  have h1 := soft_clip_le_one x
  have h2 := neg_one_le_soft_clip x
  rw [abs_le]
  constructor <;> linarith [h.1, h.2]

theorem soft_clip_f32_zero : soft_clip_f32 (0 : ℝ) = 0 := by
  rw [soft_clip_f32_of_abs_le (by norm_num)]
  simp [f32_zero]

/-- Quantitative growth of the exact Pade quotient on `[-3, 3]`. -/
theorem soft_clip_pade_sub_ge {x y : ℝ} (hx : -3 ≤ x) (hy : y ≤ 3) (hxy : x ≤ y) :
    (y - x) ^ 3 / 432 ≤ soft_clip_pade y - soft_clip_pade x := by
  have hdx := soft_clip_pade_den_pos x
  have hdy := soft_clip_pade_den_pos y
  have key : soft_clip_pade y - soft_clip_pade x
      = (y - x) * (9 * (x * y - 9) ^ 2 + 27 * (x - y) ^ 2)
        / ((27 + 9 * (x * x)) * (27 + 9 * (y * y))) := by
    simp only [soft_clip_pade]
    field_simp
    ring
  have bx : 27 + 9 * (x * x) ≤ 108 := by nlinarith
  have hby : 27 + 9 * (y * y) ≤ 108 := by nlinarith
  have hprod : (27 + 9 * (x * x)) * (27 + 9 * (y * y)) ≤ 11664 := by
    calc (27 + 9 * (x * x)) * (27 + 9 * (y * y)) ≤ 108 * 108 :=
          mul_le_mul bx hby hdy.le (by norm_num)
      _ = 11664 := by norm_num
  have h0 : 0 ≤ y - x := by linarith
  have h3 : 0 ≤ (y - x) ^ 3 := pow_nonneg h0 3
  have hsq : 0 ≤ (y - x) * (9 * (x * y - 9) ^ 2) := mul_nonneg h0 (by positivity)
  rw [key, div_le_div_iff₀ (by norm_num) (mul_pos hdx hdy)]
  have h4 : (y - x) ^ 3 * ((27 + 9 * (x * x)) * (27 + 9 * (y * y))) ≤ (y - x) ^ 3 * 11664 :=
    mul_le_mul_of_nonneg_left hprod h3
  nlinarith

/-- Quantitative growth of the exact limiter in terms of the clamped inputs. -/
theorem soft_clip_sub_ge {x y : ℝ} (hxy : x ≤ y) :
    (max (-3) (min 3 y) - max (-3) (min 3 x)) ^ 3 / 432 ≤ soft_clip y - soft_clip x := by
  rw [soft_clip_eq_pade_clamp x, soft_clip_eq_pade_clamp y]
  exact soft_clip_pade_sub_ge (le_max_left _ _) (max_le (by norm_num) (min_le_left _ _))
    (max_le_max (le_refl _) (min_le_min (le_refl _) hxy))

/-- Relative error propagation through the rational branch of `soft_clip`: if
every intermediate value carries the rounding error of one `float` operation
(relative `2 ^ (-24)`, absolute `s`), the magnitude of the result exceeds that
of the input by at most the factor `1 + 2 ^ (-21)`, up to `3 * s`. -/
theorem pade_gain_perturb (x x2 a b c d r s : ℝ) (hs0 : 0 ≤ s) (hs : s ≤ 1 / 1000000000000)
    (hx2 : 0 ≤ x2)
    (h2 : |a - (27 + x2)| ≤ |27 + x2| / 16777216 + s)
    (h3 : |b - x * a| ≤ |x * a| / 16777216 + s)
    (h4 : |c - 9 * x2| ≤ |9 * x2| / 16777216 + s)
    (h5 : |d - (27 + c)| ≤ |27 + c| / 16777216 + s)
    (h6 : |r - b / d| ≤ |b / d| / 16777216 + s) :
    |r| ≤ (1 + 1 / 2097152) * |x| + 3 * s := by
  rw [abs_of_nonneg (by linarith : (0 : ℝ) ≤ 27 + x2)] at h2
  rw [abs_of_nonneg (by linarith : (0 : ℝ) ≤ 9 * x2)] at h4
  obtain ⟨h2a, h2b⟩ := abs_le.mp h2
  obtain ⟨h4a, h4b⟩ := abs_le.mp h4
  have hc : 0 ≤ 27 + c := by linarith
  rw [abs_of_nonneg hc] at h5
  obtain ⟨h5a, h5b⟩ := abs_le.mp h5
  have ha : 26 ≤ a := by linarith
  have hd : 26 ≤ d := by linarith
  have hdpos : 0 < d := by linarith
  have key : a * (1 + 1 / 16777216) ≤ d * (1 + 4 / 16777216) := by linarith
  have hX : 0 ≤ |x| := abs_nonneg x
  have hxa : |x * a| = |x| * a := by rw [abs_mul, abs_of_nonneg (by linarith : (0 : ℝ) ≤ a)]
  rw [hxa] at h3
  have hb : |b| ≤ |x| * a * (1 + 1 / 16777216) + s := by
    have h1 : |b| ≤ |b - x * a| + |x * a| := by
      have := abs_add (b - x * a) (x * a)
      rwa [sub_add_cancel] at this
    rw [hxa] at h1
    linarith
  have hb2 : |b| ≤ |x| * (d * (1 + 4 / 16777216)) + s := by
    have := mul_le_mul_of_nonneg_left key hX
    linarith
  have hq : |b / d| ≤ |x| * (1 + 4 / 16777216) + s := by
    rw [abs_div, abs_of_pos hdpos, div_le_iff₀ hdpos]
    have : s * 1 ≤ s * d := mul_le_mul_of_nonneg_left (by linarith) hs0
    linarith
  have hr : |r| ≤ |r - b / d| + |b / d| := by
    have := abs_add (r - b / d) (b / d)
    rwa [sub_add_cancel] at this
  linarith

/-- Strict attenuation through the rational branch of `soft_clip`: if every
intermediate value carries the rounding error of one `float` operation and the
input has magnitude at least `2 ^ (-9)`, the result is smaller in magnitude
than the input. -/
theorem pade_attenuate_perturb (x x2 a b c d r s : ℝ) (hs0 : 0 ≤ s)
    (hs : s ≤ 1 / 1000000000000) (hx : 1 / 512 ≤ |x|) (hx3 : |x| ≤ 3)
    (h1 : |x2 - x * x| ≤ |x * x| / 16777216 + s)
    (h2 : |a - (27 + x2)| ≤ |27 + x2| / 16777216 + s)
    (h3 : |b - x * a| ≤ |x * a| / 16777216 + s)
    (h4 : |c - 9 * x2| ≤ |9 * x2| / 16777216 + s)
    (h5 : |d - (27 + c)| ≤ |27 + c| / 16777216 + s)
    (h6 : |r - b / d| ≤ |b / d| / 16777216 + s) :
    |r| < |x| := by
  have hsq : x * x = |x| * |x| := (abs_mul_abs_self x).symm
  have ht0 : (1 / 512 : ℝ) * (1 / 512) ≤ x * x := by
    rw [hsq]
    exact mul_le_mul hx hx (by norm_num) (abs_nonneg x)
  have ht9 : x * x ≤ 9 := by
    rw [hsq]
    calc |x| * |x| ≤ 3 * 3 := mul_le_mul hx3 hx3 (abs_nonneg x) (by norm_num)
      _ = 9 := by norm_num
  rw [abs_of_nonneg (by linarith : (0 : ℝ) ≤ x * x)] at h1
  obtain ⟨h1a, h1b⟩ := abs_le.mp h1
  have hx2 : 0 ≤ x2 := by linarith
  rw [abs_of_nonneg (by linarith : (0 : ℝ) ≤ 27 + x2)] at h2
  rw [abs_of_nonneg (by linarith : (0 : ℝ) ≤ 9 * x2)] at h4
  obtain ⟨h2a, h2b⟩ := abs_le.mp h2
  obtain ⟨h4a, h4b⟩ := abs_le.mp h4
  have hc : 0 ≤ 27 + c := by linarith
  rw [abs_of_nonneg hc] at h5
  obtain ⟨h5a, h5b⟩ := abs_le.mp h5
  have ha : 26 ≤ a := by linarith
  have hd : 26 ≤ d := by linarith
  have hd2 : d ≤ 120 := by linarith
  have hdpos : 0 < d := by linarith
  -- the denominator exceeds the numerator factor by a clear margin
  have key : a * (1 + 1 / 16777216) * (1 + 1 / 16777216) + 1 / 100000 ≤ d := by
    linarith
  have hX : 0 ≤ |x| := abs_nonneg x
  have hxa : |x * a| = |x| * a := by rw [abs_mul, abs_of_nonneg (by linarith : (0 : ℝ) ≤ a)]
  rw [hxa] at h3
  have hb : |b| ≤ |x| * a * (1 + 1 / 16777216) + s := by
    have h1 : |b| ≤ |b - x * a| + |x * a| := by
      have := abs_add (b - x * a) (x * a)
      rwa [sub_add_cancel] at this
    rw [hxa] at h1
    linarith
  have hmargin : |x| * (a * (1 + 1 / 16777216) * (1 + 1 / 16777216)) + |x| * (1 / 100000)
      ≤ |x| * d := by
    have := mul_le_mul_of_nonneg_left key hX
    linarith
  have hr : |r| ≤ |r - b / d| + |b / d| := by
    have := abs_add (r - b / d) (b / d)
    rwa [sub_add_cancel] at this
  have hq : |b / d| * (1 + 1 / 16777216) + s < |x| := by
    have e : |b / d| = |b| / d := by rw [abs_div, abs_of_pos hdpos]
    rw [e, div_mul_eq_mul_div, ← sub_pos]
    have hpos : 0 < |x| * d - (|b| * (1 + 1 / 16777216) + s * d) := by
      have hbm : |b| * (1 + 1 / 16777216)
          ≤ (|x| * a * (1 + 1 / 16777216) + s) * (1 + 1 / 16777216) :=
        mul_le_mul_of_nonneg_right hb (by norm_num)
      have hsd : s * d ≤ s * 120 := mul_le_mul_of_nonneg_left hd2 hs0
      clear h1 h1a h1b h2 h2a h2b h3 h4 h4a h4b h5 h5a h5b h6 key hb hr
      linarith
    have e2 : |x| - (|b| * (1 + 1 / 16777216) / d + s)
        = (|x| * d - (|b| * (1 + 1 / 16777216) + s * d)) / d := by
      field_simp
      ring
    rw [e2]
    exact div_pos hpos hdpos
  linarith

/-- The rounding error of one `float` operation over the reals, with the
relative bound `2 ^ (-24)` in plain numerals. -/
theorem f32_err_s (y : ℝ) : |f32 y - y| ≤ |y| / 16777216 + 2 ^ (-150 : ℤ) := by
  have h := f32_abs_sub_le y
  have e1 : (2 : ℝ) ^ (-24 : ℤ) = 1 / 16777216 := by norm_num
  rw [e1] at h
  linarith

/-- In `float` arithmetic the rational branch of the limiter amplifies by at
most the factor `1 + 2 ^ (-21)`, up to `2 ^ (-148)`. -/
theorem soft_clip_f32_gain_le (x : ℝ) :
    |soft_clip_f32 x| ≤ (1 + 2 ^ (-21 : ℤ)) * |x| + 2 ^ (-148 : ℤ) := by
  have hs0 : (0 : ℝ) ≤ 2 ^ (-150 : ℤ) := (zpow_pos (by norm_num) _).le
  have hs : (2 : ℝ) ^ (-150 : ℤ) ≤ 1 / 1000000000000 := by norm_num
  have e1 : (2 : ℝ) ^ (-21 : ℤ) = 1 / 2097152 := by norm_num
  have e2 : (3 : ℝ) * 2 ^ (-150 : ℤ) ≤ 2 ^ (-148 : ℤ) := by norm_num
  have hX : 0 ≤ |x| := abs_nonneg x
  have hpos : (0 : ℝ) ≤ 2 ^ (-148 : ℤ) := (zpow_pos (by norm_num) _).le
  rcases lt_or_le 3 |x| with h3 | h3
  · have hone : |soft_clip_f32 x| = 1 := by
      rcases lt_abs.mp h3 with h | h
      · rw [soft_clip_f32_of_gt h, abs_one]
      · rw [soft_clip_f32_of_lt (by linarith), abs_neg, abs_one]
    rw [hone, e1]
    nlinarith
  · rw [soft_clip_f32_of_abs_le h3, e1]
    have h := pade_gain_perturb x (f32 (x * x)) (f32 (27 + f32 (x * x)))
      (f32 (x * f32 (27 + f32 (x * x)))) (f32 (9 * f32 (x * x)))
      (f32 (27 + f32 (9 * f32 (x * x))))
      (f32 (f32 (x * f32 (27 + f32 (x * x))) / f32 (27 + f32 (9 * f32 (x * x)))))
      (2 ^ (-150 : ℤ)) hs0 hs (f32_nonneg (mul_self_nonneg x))
      (f32_err_s _) (f32_err_s _) (f32_err_s _) (f32_err_s _) (f32_err_s _)
    linarith

/-- In `float` arithmetic the limiter strictly attenuates every input of
magnitude at least `2 ^ (-9)`. -/
theorem soft_clip_f32_attenuates (x : ℝ) (hx : 1 / 512 ≤ |x|) : |soft_clip_f32 x| < |x| := by
  have hs0 : (0 : ℝ) ≤ 2 ^ (-150 : ℤ) := (zpow_pos (by norm_num) _).le
  have hs : (2 : ℝ) ^ (-150 : ℤ) ≤ 1 / 1000000000000 := by norm_num
  rcases lt_or_le 3 |x| with h3 | h3
  · rcases lt_abs.mp h3 with h | h
    · rw [soft_clip_f32_of_gt h, abs_one]
      linarith
    · rw [soft_clip_f32_of_lt (by linarith), abs_neg, abs_one]
      linarith
  · rw [soft_clip_f32_of_abs_le h3]
    exact pade_attenuate_perturb x (f32 (x * x)) (f32 (27 + f32 (x * x)))
      (f32 (x * f32 (27 + f32 (x * x)))) (f32 (9 * f32 (x * x)))
      (f32 (27 + f32 (9 * f32 (x * x))))
      (f32 (f32 (x * f32 (27 + f32 (x * x))) / f32 (27 + f32 (9 * f32 (x * x)))))
      (2 ^ (-150 : ℤ)) hs0 hs hx h3
      (f32_err_s _) (f32_err_s _) (f32_err_s _) (f32_err_s _) (f32_err_s _) (f32_err_s _)

/-- C1. The `float` limiter leaves `[-1, 1]`: at the input
`12512681 / 2 ^ 22`, about `2.98326`, below the upper threshold, the rounded
quotient is `1 + 2 ^ (-23)`. -/
theorem soft_clip_f32_exceeds_one :
    |(12512681 / 4194304 : ℝ)| ≤ 3 ∧
      soft_clip_f32 (12512681 / 4194304 : ℝ) = 8388609 / 8388608 ∧
      soft_clip_f32 (12512681 / 4194304 : ℝ) ∉ Set.Icc (-1 : ℝ) 1 := by
  refine ⟨by norm_num [abs_of_pos], soft_clip_f32_eval_overshoot, ?_⟩
  rw [soft_clip_f32_eval_overshoot, Set.mem_Icc]
  norm_num

/-- C6, as stated, fails: `4 < 5` but `soft_clip 4 = soft_clip 5 = 1`, both
inputs being on the upper saturation branch. -/
theorem soft_clip_f32_not_strictMono :
    (4 : ℝ) < 5 ∧ ¬ soft_clip_f32 (4 : ℝ) < soft_clip_f32 (5 : ℝ) := by
  refine ⟨by norm_num, ?_⟩
  rw [soft_clip_f32_of_gt (by norm_num : (3 : ℝ) < 4),
    soft_clip_f32_of_gt (by norm_num : (3 : ℝ) < 5)]
  exact lt_irrefl 1

/-- C6, amended. In `float` arithmetic the limiter is strictly increasing for
inputs that are at least `1 / 8` apart and not both saturated on the same
side: for all real `x`, `y` with `x + 1 / 8 ≤ y`, `x ≤ 3 - 1 / 8` and
`-3 + 1 / 8 ≤ y`, `soft_clip x < soft_clip y`. -/
theorem soft_clip_f32_strictMono_apart (x y : ℝ) (hxy : x + 1 / 8 ≤ y) (hx : x ≤ 3 - 1 / 8)
    (hy : -3 + 1 / 8 ≤ y) : soft_clip_f32 x < soft_clip_f32 y := by
  have hgap : 1 / 8 ≤ max (-3) (min 3 y) - max (-3) (min 3 x) := by
    have e1 : min 3 x = x := min_eq_right (by linarith)
    have e2 : max (-3) (min 3 y) = min 3 y := max_eq_right (le_min (by norm_num) (by linarith))
    rw [e1, e2]
    rcases le_total x (-3) with h1 | h1 <;> rcases le_total y 3 with h2 | h2
    · rw [max_eq_left h1, min_eq_right h2]; linarith
    · rw [max_eq_left h1, min_eq_left h2]; norm_num
    · rw [max_eq_right h1, min_eq_right h2]; linarith
    · rw [max_eq_right h1, min_eq_left h2]; linarith
  have hgrow := soft_clip_sub_ge (show x ≤ y by linarith)
  have hcube : (1 / 8 : ℝ) ^ 3 ≤ (max (-3) (min 3 y) - max (-3) (min 3 x)) ^ 3 :=
    pow_le_pow_left₀ (by norm_num) hgap 3
  have hxc := abs_le.mp (soft_clip_f32_close x)
  have hyc := abs_le.mp (soft_clip_f32_close y)
  norm_num at hcube
  linarith [hxc.1, hxc.2, hyc.1, hyc.2]

theorem soft_clip_f32_strictMono_apart_witness :
    soft_clip_f32 (-5 : ℝ) < soft_clip_f32 (2 : ℝ) :=
  soft_clip_f32_strictMono_apart (-5) 2 (by norm_num) (by norm_num) (by norm_num)

/-- C19, as stated, fails: at the input `5188795 / 2 ^ 35`, about `1.51e-4`, the
`float` limiter returns the next `float` above its input, and at `2 ^ (-13)` it
returns its input unchanged, an equality away from `0`. -/
theorem soft_clip_f32_amplifies :
    soft_clip_f32 (5188795 / 34359738368 : ℝ) = 10377591 / 68719476736 ∧
      ¬ |soft_clip_f32 (5188795 / 34359738368 : ℝ)| ≤ |(5188795 / 34359738368 : ℝ)| ∧
      |soft_clip_f32 (1 / 8192 : ℝ)| = |(1 / 8192 : ℝ)| ∧ (1 / 8192 : ℝ) ≠ 0 := by
  refine ⟨soft_clip_f32_eval_small, ?_, ?_, by norm_num⟩
  · rw [soft_clip_f32_eval_small]
    norm_num [abs_of_pos]
  · rw [soft_clip_f32_eval_pow]

/-- C19, amended. In `float` arithmetic the limiter never amplifies by more than
a few rounding errors: for every real `x`,
`|soft_clip x| ≤ (1 + 2 ^ (-21)) * |x| + 2 ^ (-148)`; it strictly attenuates
every input of magnitude at least `2 ^ (-9)`; and `soft_clip 0 = 0`. -/
theorem soft_clip_f32_never_amplifies (x : ℝ) :
    |soft_clip_f32 x| ≤ (1 + 2 ^ (-21 : ℤ)) * |x| + 2 ^ (-148 : ℤ) ∧
      (2 ^ (-9 : ℤ) ≤ |x| → |soft_clip_f32 x| < |x|) ∧ soft_clip_f32 (0 : ℝ) = 0 := by
  refine ⟨soft_clip_f32_gain_le x, ?_, soft_clip_f32_zero⟩
  intro hx
  have e : (2 : ℝ) ^ (-9 : ℤ) = 1 / 512 := by norm_num
  rw [e] at hx
  exact soft_clip_f32_attenuates x hx

theorem soft_clip_f32_never_amplifies_witness :
    |soft_clip_f32 (1 / 512 : ℝ)| < |(1 / 512 : ℝ)| :=
  (soft_clip_f32_never_amplifies (1 / 512)).2.1 (by norm_num [abs_of_pos])

/-- C20, as stated, fails in `float` arithmetic: the limiter returns
`1 + 2 ^ (-23)` at `12512681 / 2 ^ 22` but `1` at the larger input `3`, and for
the neighbouring `float` inputs `2706001 / 2 ^ 28 < 10824005 / 2 ^ 30`, about
`0.01008`, the outputs are in the opposite order. -/
theorem soft_clip_f32_order_inverted :
    ((12512681 / 4194304 : ℝ) ≤ 3 ∧
        ¬ soft_clip_f32 (12512681 / 4194304 : ℝ) ≤ soft_clip_f32 (3 : ℝ)) ∧
      ((2706001 / 268435456 : ℝ) ≤ 10824005 / 1073741824 ∧
        ¬ soft_clip_f32 (2706001 / 268435456 : ℝ)
          ≤ soft_clip_f32 (10824005 / 1073741824 : ℝ)) := by
  refine ⟨⟨by norm_num, ?_⟩, ⟨by norm_num, ?_⟩⟩
  · rw [soft_clip_f32_eval_overshoot, soft_clip_f32_eval_three]
    norm_num
  · rw [soft_clip_f32_eval_lo, soft_clip_f32_eval_hi]
    norm_num

/-- C20, amended. In `float` arithmetic the limiter preserves order up to the
rounding error: for all real `x ≤ y`, `soft_clip x ≤ soft_clip y + 2 ^ (-18)`,
and on the interval `[-3, 3]` the output grows by at least
`(y - x) ^ 3 / 432 - 2 ^ (-18)`, so it is strictly increasing for inputs far
enough apart. -/
theorem soft_clip_f32_order_preserving :
    (∀ x y : ℝ, x ≤ y → soft_clip_f32 x ≤ soft_clip_f32 y + 2 ^ (-18 : ℤ)) ∧
      (∀ x y : ℝ, x ∈ Set.Icc (-3 : ℝ) 3 → y ∈ Set.Icc (-3 : ℝ) 3 → x ≤ y →
        (y - x) ^ 3 / 432 - 2 ^ (-18 : ℤ) ≤ soft_clip_f32 y - soft_clip_f32 x) := by
  have e : (2 : ℝ) ^ (-18 : ℤ) = 1 / 262144 := by norm_num
  rw [e]
  constructor
  · intro x y h
    have hx := abs_le.mp (soft_clip_f32_close x)
    have hy := abs_le.mp (soft_clip_f32_close y)
    have hm := soft_clip_monotone h
    linarith [hx.1, hx.2, hy.1, hy.2]
  · intro x y hx hy h
    have hxc := abs_le.mp (soft_clip_f32_close x)
    have hyc := abs_le.mp (soft_clip_f32_close y)
    have hg := soft_clip_pade_sub_ge hx.1 hy.2 h
    rw [← soft_clip_of_abs_le (abs_le.mpr ⟨hx.1, hx.2⟩),
      ← soft_clip_of_abs_le (abs_le.mpr ⟨hy.1, hy.2⟩)] at hg
    linarith [hxc.1, hxc.2, hyc.1, hyc.2]

theorem soft_clip_f32_order_preserving_witness :
    soft_clip_f32 (4 : ℝ) ≤ soft_clip_f32 (5 : ℝ) + 2 ^ (-18 : ℤ) ∧
      ((3 : ℝ) - (-3)) ^ 3 / 432 - 2 ^ (-18 : ℤ)
        ≤ soft_clip_f32 (3 : ℝ) - soft_clip_f32 (-3 : ℝ) :=
  ⟨soft_clip_f32_order_preserving.1 4 5 (by norm_num),
    soft_clip_f32_order_preserving.2 (-3) 3 ⟨le_refl _, by norm_num⟩ ⟨by norm_num, le_refl _⟩
      (by norm_num)⟩

end Emverb
